import Mathlib

/-!
# Verification of the ghost-leg (ladder) generation and tracing engine

Shallow embedding of `src/lib/services/ladder.ts`.  Randomness is made
explicit: every call of the form `Math.floor(Math.random() * k)` is
modelled as `r i % k` for an arbitrary oracle `r : Nat → Nat`, and every
boolean draw `Math.random() > 0.4` as an arbitrary oracle
`b : Nat → Nat → Bool` indexed by the (row, column) position of the draw.
Theorems quantify over all oracles, so they cover every possible sequence
of random draws.
-/

namespace Ladder

/-- JS `[arr[a], arr[b]] = [arr[b], arr[a]]`: swap the entries at
positions `a` and `b` of a list (no-op on out-of-range positions). -/
def listSwap (l : List Nat) (a b : Nat) : List Nat :=
  (l.set a (l.getD b 0)).set b (l.getD a 0)

/-- The loop of `generateDerangement`: `for (let i = n - 1; i > 0; i--)`
swap `arr[i]` with `arr[j]`, `j = Math.floor(Math.random() * i)`,
modelled as `r i % i`.  `derangeLoop r i arr` runs the iterations for
indices `i, i-1, ..., 1`. -/
def derangeLoop (r : Nat → Nat) : Nat → List Nat → List Nat
  | 0, arr => arr
  | i + 1, arr => derangeLoop r i (listSwap arr (i + 1) (r (i + 1) % (i + 1)))

/-- `generateDerangement(n)` of the source: start from `[0, 1, ..., n-1]`
and run the restricted (Sattolo) shuffle. -/
def generateDerangement (r : Nat → Nat) (n : Nat) : List Nat :=
  derangeLoop r (n - 1) (List.range n)

/-- One row step of the tracing logic shared by `simulatePermutation` and
`traceLadderPath`: move left when the slot to the left holds a rung,
otherwise right when the own slot holds a rung, otherwise stay. -/
def rowStep (n : Nat) (row : List Bool) (col : Nat) : Nat :=
  if 0 < col ∧ row.getD (col - 1) false then col - 1
  else if col < n - 1 ∧ row.getD col false then col + 1
  else col

/-- Walk one start column through all rows of a grid (the inner loop of
`simulatePermutation`). -/
def simulateOne (rungs : List (List Bool)) (n : Nat) (start : Nat) : Nat :=
  rungs.foldl (fun col row => rowStep n row col) start

/-- `simulatePermutation(rungs, n)` of the source. -/
def simulatePermutation (rungs : List (List Bool)) (n : Nat) : List Nat :=
  (List.range n).map (simulateOne rungs n)

/-- Build one random row left to right; `prev` is the value just pushed
(`prevHasRung`), so a rung is placed only when the previous slot is empty
and the draw succeeds.  This is the row loop of the unconstrained mode of
`generateLadder` and of the chaos phase of `permutationToRungs`. -/
def buildRowGo (rb : Nat → Bool) : Nat → Bool → Nat → List Bool
  | 0, _, _ => []
  | k + 1, prev, col =>
    let v := !prev && rb col
    v :: buildRowGo rb k v (col + 1)

/-- A full random row of `nSlots` rung slots. -/
def buildRandomRow (rb : Nat → Bool) (nSlots : Nat) : List Bool :=
  buildRowGo rb nSlots false 0

/-- JS positional inverse construction
`for i: inv[perm[i]] = i` starting from `Array(n).fill(0)`. -/
def invertPerm (p : List Nat) : List Nat :=
  (List.range p.length).foldl (fun inv i => inv.set (p.getD i 0) i)
    (List.replicate p.length 0)

/-- The inner `while (pos > i)` loop of the correction reduction: do `k`
adjacent left-swaps starting at position `pos`, recording each swapped
slot (`pos - 1`, then `pos - 2`, ...).  Returns the recorded slots (in
order) and the final state. -/
def moveLeft : List Nat → Nat → Nat → List Nat × List Nat
  | st, _, 0 => ([], st)
  | st, pos, k + 1 =>
    let st' := listSwap st pos (pos - 1)
    let rest := moveLeft st' (pos - 1) k
    ((pos - 1) :: rest.1, rest.2)

/-- The outer `for (let i = 0; i < n; i++)` loop of the correction
reduction: `selSortAux cInv i fuel st` processes indices
`i, i+1, ..., i+fuel-1`, locating `cInv[i]` in the state (JS `indexOf`
yields `-1` when absent, in which case `pos > i` fails and nothing
happens) and bubbling it left to position `i`.  Returns all recorded
swap slots in order together with the final state. -/
def selSortAux (cInv : List Nat) : Nat → Nat → List Nat → List Nat × List Nat
  | _, 0, st => ([], st)
  | i, k + 1, st =>
    let v := cInv.getD i 0
    let res := if v ∈ st then moveLeft st (st.indexOf v) (st.indexOf v - i)
               else ([], st)
    let rest := selSortAux cInv (i + 1) k res.2
    (res.1 ++ rest.1, rest.2)

/-- A row holding exactly one rung, at slot `q`. -/
def oneHotRow (nSlots q : Nat) : List Bool :=
  (List.range nSlots).map (fun c => decide (c = q))

/-- A row with no rungs. -/
def emptyRow (nSlots : Nat) : List Bool :=
  List.replicate nSlots false

/-- The filler loop `for (let row = correctionRow; row < rowCount - 1;
row += 2)` of `permutationToRungs`, acting on the trailing empty rows:
`remaining = rowCount - row` rows are left.  The row being written is
empty, so the `prevHasRung`/`nextHasRung` tests are evaluated against
`emptyRow` exactly as the source reads the still-empty grid row. -/
def fillerBuild (f : Nat → Nat) (nSlots : Nat) : Nat → Nat → List (List Bool)
  | _, 0 => []
  | _, 1 => [emptyRow nSlots]
  | row, k + 2 =>
    let col := f row % nSlots
    let prevHasRung := decide (0 < col) && (emptyRow nSlots).getD (col - 1) false
    let nextHasRung := decide (col < nSlots - 1) && (emptyRow nSlots).getD (col + 1) false
    if !prevHasRung && !nextHasRung then
      oneHotRow nSlots col :: oneHotRow nSlots col :: fillerBuild f nSlots (row + 2) k
    else
      emptyRow nSlots :: emptyRow nSlots :: fillerBuild f nSlots (row + 2) k

/-- The number of chaos rows of `permutationToRungs`:
`Math.max(Math.floor(rowCount * 0.5), rowCount - correctionReserve)`
with `correctionReserve = n * (n - 1) / 2 + 2` (a negative JS
difference and the truncated natural difference both lose to the first
argument of the max). -/
def chaosRowsCount (n rowCount : Nat) : Nat :=
  max (rowCount / 2) (rowCount - (n * (n - 1) / 2 + 2))

/-- The chaos rows of `permutationToRungs`: random non-adjacent rungs. -/
def chaosGridOf (b : Nat → Nat → Bool) (n rowCount : Nat) : List (List Bool) :=
  (List.range (chaosRowsCount n rowCount)).map (fun row => buildRandomRow (b row) (n - 1))

/-- The `currentPerm` local of `permutationToRungs`: the permutation
realized by the chaos rows alone. -/
def currentPermOf (b : Nat → Nat → Bool) (n rowCount : Nat) : List Nat :=
  simulatePermutation (chaosGridOf b n rowCount) n

/-- The `correction` local of `permutationToRungs`:
`correction[i] = targetPerm[currentInverse[i]]`. -/
def correctionList (b : Nat → Nat → Bool) (targetPerm : List Nat) (rowCount : Nat) :
    List Nat :=
  (List.range targetPerm.length).map
    (fun i => targetPerm.getD
      ((invertPerm (currentPermOf b targetPerm.length rowCount)).getD i 0) 0)

/-- The `correctionSwaps` local of `permutationToRungs`: the recorded
adjacent-transposition slots of the selection-sort reduction applied to
`correctionInverse`. -/
def correctionSwapList (b : Nat → Nat → Bool) (targetPerm : List Nat) (rowCount : Nat) :
    List Nat :=
  (selSortAux (invertPerm (correctionList b targetPerm rowCount)) 0 targetPerm.length
    (List.range targetPerm.length)).1

/-- The correction swaps actually written to the grid: the placement
loop stops (`break`) when the row cursor reaches `rowCount`. -/
def placedSwaps (b : Nat → Nat → Bool) (targetPerm : List Nat) (rowCount : Nat) :
    List Nat :=
  (correctionSwapList b targetPerm rowCount).take
    (rowCount - chaosRowsCount targetPerm.length rowCount)

/-- `permutationToRungs(targetPerm, rowCount)` of the source, assembled
functionally: chaos rows, then one one-hot row per recorded correction
swap (stopping when rows run out), then the filler pairs on the
remaining empty rows. -/
def permutationToRungs (b : Nat → Nat → Bool) (f : Nat → Nat)
    (targetPerm : List Nat) (rowCount : Nat) : List (List Bool) :=
  chaosGridOf b targetPerm.length rowCount ++
    (placedSwaps b targetPerm rowCount).map (oneHotRow (targetPerm.length - 1)) ++
    fillerBuild f (targetPerm.length - 1)
      (chaosRowsCount targetPerm.length rowCount + (placedSwaps b targetPerm rowCount).length)
      (rowCount -
        (chaosRowsCount targetPerm.length rowCount + (placedSwaps b targetPerm rowCount).length))

/-- The `{ rungs, rowCount }` record returned by `generateLadder`. -/
structure LadderData where
  rungs : List (List Bool)
  rowCount : Nat
deriving DecidableEq, Repr

/-- `generateLadder(config)` of the source; `dr` is the oracle for the
derangement draws, `b` for the per-(row, col) boolean draws, `f` for the
filler slot draws. -/
def generateLadder (b : Nat → Nat → Bool) (f : Nat → Nat) (dr : Nat → Nat)
    (playerCount : Nat) (excludeSelf : Bool) : LadderData :=
  let rowCount := if excludeSelf then max 12 (playerCount * playerCount)
                  else max 12 (playerCount * 4)
  let rungs :=
    if excludeSelf then
      permutationToRungs b f (generateDerangement dr playerCount) rowCount
    else
      (List.range rowCount).map (fun row => buildRandomRow (b row) (playerCount - 1))
  { rungs := rungs, rowCount := rowCount }

/-- A 2-D waypoint of a traced path. -/
structure PathPoint where
  x : ℚ
  y : ℚ
deriving DecidableEq, Repr

/-- `col * cellWidth + cellWidth / 2 + 50` of the source. -/
def getX (cellWidth : ℚ) (col : Nat) : ℚ := col * cellWidth + cellWidth / 2 + 50

/-- `row * cellHeight + startY + cellHeight / 2` of the source. -/
def getY (cellHeight startY : ℚ) (row : Nat) : ℚ := row * cellHeight + startY + cellHeight / 2

/-- The row loop of `traceLadderPath`: starting at column `col` on row
`row` with `k` rows remaining, emit for each row the waypoint at the
current column and, when a rung is crossed, the waypoint at the new
column.  Returns the emitted waypoints and the final column. -/
def traceRows (rungs : List (List Bool)) (n : Nat) (cw ch y0 : ℚ) :
    Nat → Nat → Nat → List PathPoint × Nat
  | _, col, 0 => ([], col)
  | row, col, k + 1 =>
    let y := getY ch y0 row
    let rowL := rungs.getD row []
    if 0 < col ∧ rowL.getD (col - 1) false then
      let rest := traceRows rungs n cw ch y0 (row + 1) (col - 1) k
      (⟨getX cw col, y⟩ :: ⟨getX cw (col - 1), y⟩ :: rest.1, rest.2)
    else if col < n - 1 ∧ rowL.getD col false then
      let rest := traceRows rungs n cw ch y0 (row + 1) (col + 1) k
      (⟨getX cw col, y⟩ :: ⟨getX cw (col + 1), y⟩ :: rest.1, rest.2)
    else
      let rest := traceRows rungs n cw ch y0 (row + 1) col k
      (⟨getX cw col, y⟩ :: rest.1, rest.2)

/-- The `{ path, finalColumn }` record returned by `traceLadderPath`. -/
structure TraceResult where
  path : List PathPoint
  finalColumn : Nat
deriving DecidableEq, Repr

/-- `traceLadderPath(ladder, startCol, playerCount, cellWidth,
cellHeight, startY)` of the source. -/
def traceLadderPath (ladder : LadderData) (startCol playerCount : Nat)
    (cellWidth cellHeight startY : ℚ) : TraceResult :=
  let body := traceRows ladder.rungs playerCount cellWidth cellHeight startY 0 startCol
    ladder.rowCount
  let finalY : ℚ := ladder.rowCount * cellHeight + startY
  { path := ⟨getX cellWidth startCol, startY⟩ :: body.1 ++ [⟨getX cellWidth body.2, finalY⟩],
    finalColumn := body.2 }

/-- `computeAllResults(ladder, playerCount)` of the source: trace every
start column at unit geometry and collect the final columns. -/
def computeAllResults (ladder : LadderData) (playerCount : Nat) : List Nat :=
  (List.range playerCount).map
    (fun i => (traceLadderPath ladder i playerCount 1 1 0).finalColumn)

/-- `isValidDerangement(results)` of the source. -/
def isValidDerangement (results : List Nat) : Bool :=
  (List.range results.length).all (fun idx => !decide (results.getD idx 0 = idx))

/-- The inner loop of `hasNoAdjacentRungs` over one row. -/
def rowNoAdjacent (row : List Bool) : Bool :=
  (List.range row.length).all
    (fun i => if i = 0 then true else !(row.getD i false && row.getD (i - 1) false))

/-- `hasNoAdjacentRungs(rungs)` of the source. -/
def hasNoAdjacentRungs (rungs : List (List Bool)) : Bool :=
  rungs.all rowNoAdjacent

/-! Auxiliary notions used to state and prove properties of the above. -/

/-- Application of the transposition of `a` and `b`. -/
def transpApply (a b x : Nat) : Nat :=
  if x = a then b else if x = b then a else x

/-- The permutation realized by the restricted shuffle of
`generateDerangement`, built from the outside in: step `m + 1`
multiplies by the transposition of `m + 1` with the drawn `j < m + 1`. -/
def sattoloPerm (r : Nat → Nat) : Nat → Equiv.Perm ℕ
  | 0 => 1
  | m + 1 => Equiv.swap (m + 1) (r (m + 1) % (m + 1)) * sattoloPerm r m

/-- Explicit cycle witness for `sattoloPerm`: the orbit order as a list,
grown by splicing `m + 1` in front of the drawn element `j`. -/
def cycleList (r : Nat → Nat) : Nat → List Nat
  | 0 => [0]
  | m + 1 =>
    let j := r (m + 1) % (m + 1)
    let C := cycleList r m
    (m + 1) :: C.rotate (C.indexOf j)

/-- Iterate the map `y ↦ l[y]` (with default `0`) `k` times from `x`:
walking the functional graph of a permutation given as a list. -/
def iterIdx (l : List Nat) (k x : Nat) : Nat :=
  (fun y => l.getD y 0)^[k] x

/-- Propositional form of the no-adjacent-rungs invariant for one row:
no slot and its right neighbour both hold a rung (out-of-range slots
read as `false`). -/
def NoAdjP (row : List Bool) : Prop :=
  ∀ i, ¬(row.getD i false = true ∧ row.getD (i + 1) false = true)

/-- All rows of a grid satisfy the no-adjacent-rungs invariant. -/
def GridNoAdj (rungs : List (List Bool)) : Prop :=
  ∀ row ∈ rungs, NoAdjP row

/-- The column permutation performed by a row holding exactly one rung
at slot `q`: swap columns `q` and `q + 1`. -/
def slotAction (q x : Nat) : Nat :=
  if x = q then q + 1 else if x = q + 1 then q else x

/-- Apply the single-rung row actions for a list of slots in order. -/
def applySlots (slots : List Nat) (x : Nat) : Nat :=
  slots.foldl (fun c q => slotAction q c) x

/-- Two consecutive waypoints differ in exactly one coordinate. -/
def diffExactlyOne (p q : PathPoint) : Prop :=
  (p.x = q.x ∧ p.y ≠ q.y) ∨ (p.x ≠ q.x ∧ p.y = q.y)

/-- A horizontal move between consecutive waypoints. -/
def isHoriz (p q : PathPoint) : Prop :=
  p.y = q.y ∧ p.x ≠ q.x

/-- No two consecutive moves of a waypoint list are both horizontal. -/
def noTwoHoriz : List PathPoint → Prop
  | p :: q :: s :: rest => ¬(isHoriz p q ∧ isHoriz q s) ∧ noTwoHoriz (q :: s :: rest)
  | _ => True

/-! ### Basic facts about `listSwap` -/

theorem length_listSwap (l : List Nat) (a b : Nat) :
    (listSwap l a b).length = l.length := by
  simp [listSwap]

theorem getD_listSwap (l : List Nat) (a b : Nat) (hab : a ≠ b)
    (ha : a < l.length) (hb : b < l.length) (x : Nat) :
    (listSwap l a b).getD x 0 = l.getD (transpApply a b x) 0 := by
  have hlen : (listSwap l a b).length = l.length := length_listSwap l a b
  unfold listSwap transpApply
  by_cases hxa : x = a
  · subst hxa
    rw [if_pos rfl,
      List.getD_eq_getElem _ _ (by simp only [List.length_set]; exact ha),
      List.getElem_set_ne (fun h => hab h.symm),
      List.getElem_set_self, List.getD_eq_getElem _ _ hb]
  · by_cases hxb : x = b
    · subst hxb
      rw [if_neg hxa, if_pos rfl,
        List.getD_eq_getElem _ _ (by simp only [List.length_set]; exact hb),
        List.getElem_set_self, List.getD_eq_getElem _ _ ha]
    · rw [if_neg hxa, if_neg hxb]
      by_cases hx : x < l.length
      · rw [List.getD_eq_getElem _ _ (by simp only [List.length_set]; exact hx),
          List.getElem_set_ne (fun h => hxb h.symm),
          List.getElem_set_ne (fun h => hxa h.symm),
          List.getD_eq_getElem _ _ hx]
      · rw [List.getD_eq_default _ _ (by simp only [List.length_set]; omega),
          List.getD_eq_default _ _ (by omega)]

theorem transpApply_eq_swap (a b x : Nat) :
    transpApply a b x = Equiv.swap a b x := by
  rw [Equiv.swap_apply_def, transpApply]

/-! ### The restricted shuffle of `generateDerangement` realizes `sattoloPerm` -/

theorem length_derangeLoop (r : Nat → Nat) :
    ∀ (m : Nat) (arr : List Nat), (derangeLoop r m arr).length = arr.length := by
  intro m
  induction m with
  | zero => intro arr; rfl
  | succ m ih =>
    intro arr
    rw [derangeLoop, ih, length_listSwap]

theorem getD_derangeLoop (r : Nat → Nat) :
    ∀ (m : Nat) (arr : List Nat), m < arr.length → ∀ x,
      (derangeLoop r m arr).getD x 0 = arr.getD (sattoloPerm r m x) 0 := by
  intro m
  induction m with
  | zero =>
    intro arr _ x
    simp [derangeLoop, sattoloPerm]
  | succ m ih =>
    intro arr hm x
    have hj : r (m + 1) % (m + 1) < m + 1 := Nat.mod_lt _ (Nat.succ_pos m)
    have hswaplen : (listSwap arr (m + 1) (r (m + 1) % (m + 1))).length = arr.length :=
      length_listSwap _ _ _
    rw [derangeLoop, ih _ (by omega),
      getD_listSwap arr (m + 1) (r (m + 1) % (m + 1)) (by omega) hm (by omega),
      transpApply_eq_swap, sattoloPerm]
    rfl

/-! ### The cycle structure of `sattoloPerm` -/

theorem cycleList_perm_range (r : Nat → Nat) :
    ∀ m, (cycleList r m).Perm (List.range (m + 1)) := by
  intro m
  induction m with
  | zero => rfl
  | succ m ih =>
    rw [cycleList]
    refine (List.Perm.cons _ ((List.rotate_perm _ _).trans ih)).trans ?_
    have hr : List.range (m + 1 + 1) = List.range (m + 1) ++ [m + 1] := List.range_succ (m + 1)
    rw [hr]
    exact (List.perm_append_singleton _ _).symm

theorem cycleList_nodup (r : Nat → Nat) (m : Nat) : (cycleList r m).Nodup :=
  (cycleList_perm_range r m).nodup_iff.mpr (List.nodup_range _)

theorem cycleList_length (r : Nat → Nat) (m : Nat) :
    (cycleList r m).length = m + 1 := by
  rw [(cycleList_perm_range r m).length_eq, List.length_range]

theorem mem_cycleList (r : Nat → Nat) (m x : Nat) :
    x ∈ cycleList r m ↔ x < m + 1 := by
  rw [(cycleList_perm_range r m).mem_iff, List.mem_range]

theorem sattoloPerm_eq_formPerm (r : Nat → Nat) :
    ∀ m, sattoloPerm r m = (cycleList r m).formPerm := by
  intro m
  induction m with
  | zero => rfl
  | succ m ih =>
    have hj : r (m + 1) % (m + 1) < m + 1 := Nat.mod_lt _ (Nat.succ_pos m)
    have hjmem : r (m + 1) % (m + 1) ∈ cycleList r m := (mem_cycleList r m _).mpr hj
    have hidx : (cycleList r m).indexOf (r (m + 1) % (m + 1)) < (cycleList r m).length :=
      List.indexOf_lt_length.mpr hjmem
    obtain ⟨rest, hrot⟩ :
        ∃ rest, (cycleList r m).rotate ((cycleList r m).indexOf (r (m + 1) % (m + 1))) =
          (r (m + 1) % (m + 1)) :: rest := by
      refine ⟨(cycleList r m).drop ((cycleList r m).indexOf (r (m + 1) % (m + 1)) + 1) ++
        (cycleList r m).take ((cycleList r m).indexOf (r (m + 1) % (m + 1))), ?_⟩
      rw [List.rotate_eq_drop_append_take (Nat.le_of_lt hidx),
        List.drop_eq_getElem_cons hidx, List.getElem_indexOf hidx]
      simp
    rw [sattoloPerm, cycleList, ih]
    show _ = List.formPerm (_ :: _)
    rw [hrot, List.formPerm_cons_cons, ← hrot,
      List.formPerm_rotate _ (cycleList_nodup r m)]

/-! ### Characterization of `generateDerangement` -/

theorem length_generateDerangement (r : Nat → Nat) (n : Nat) :
    (generateDerangement r n).length = n := by
  rw [generateDerangement, length_derangeLoop, List.length_range]

theorem sattoloPerm_lt (r : Nat → Nat) (m x : Nat) (hx : x < m + 1) :
    sattoloPerm r m x < m + 1 := by
  have hmem : x ∈ cycleList r m := (mem_cycleList r m x).mpr hx
  have h2 := List.formPerm_apply_mem_of_mem hmem
  rw [← sattoloPerm_eq_formPerm] at h2
  exact (mem_cycleList r m _).mp h2

theorem getD_generateDerangement (r : Nat → Nat) (n : Nat) (hn : 1 ≤ n)
    (x : Nat) (hx : x < n) :
    (generateDerangement r n).getD x 0 = sattoloPerm r (n - 1) x := by
  have hm : n - 1 < (List.range n).length := by simp; omega
  rw [generateDerangement, getD_derangeLoop r (n - 1) _ hm]
  have hlt : sattoloPerm r (n - 1) x < n := by
    have := sattoloPerm_lt r (n - 1) x (by omega)
    omega
  rw [List.getD_eq_getElem _ _ (by simpa using hlt), List.getElem_range]

theorem generateDerangement_eq_map (r : Nat → Nat) (n : Nat) (hn : 1 ≤ n) :
    generateDerangement r n = (List.range n).map (fun x => sattoloPerm r (n - 1) x) := by
  apply List.ext_getElem
  · rw [length_generateDerangement]; simp
  · intro i h1 h2
    have hi : i < n := by simpa [length_generateDerangement] using h1
    rw [← List.getD_eq_getElem _ 0 h1, getD_generateDerangement r n hn i hi,
      List.getElem_map, List.getElem_range]

theorem generateDerangement_perm_range (r : Nat → Nat) (n : Nat) (hn : 1 ≤ n) :
    (generateDerangement r n).Perm (List.range n) := by
  rw [generateDerangement_eq_map r n hn]
  have hnd : ((List.range n).map (fun x => sattoloPerm r (n - 1) x)).Nodup :=
    (List.nodup_range n).map (Equiv.injective _)
  have hsub : ((List.range n).map (fun x => sattoloPerm r (n - 1) x)) ⊆ List.range n := by
    intro y hy
    rw [List.mem_map] at hy
    obtain ⟨x, hx, rfl⟩ := hy
    rw [List.mem_range] at hx ⊢
    have := sattoloPerm_lt r (n - 1) x (by omega)
    omega
  exact (List.subperm_of_subset hnd hsub).perm_of_length_le (by simp)

theorem generateDerangement_no_fixed (r : Nat → Nat) (n : Nat) (hn : 2 ≤ n)
    (i : Nat) (hi : i < n) : (generateDerangement r n).getD i 0 ≠ i := by
  rw [getD_generateDerangement r n (by omega) i hi,
    sattoloPerm_eq_formPerm]
  refine (List.formPerm_apply_mem_ne_self_iff _ (cycleList_nodup r (n - 1)) i ?_).mpr ?_
  · rw [mem_cycleList]; omega
  · rw [cycleList_length]; omega

/-- C5: for every `n >= 2` and every sequence of random draws,
`generateDerangement(n)` returns an array of length `n` that contains
each of `0..n-1` exactly once and has no index `i` whose value is `i`
(always a derangement, with no retry loop). -/
theorem c5_generateDerangement_is_derangement (n : Nat) (r : Nat → Nat) (hn : 2 ≤ n) :
    (generateDerangement r n).length = n ∧
    (generateDerangement r n).Perm (List.range n) ∧
    ∀ i < n, (generateDerangement r n).getD i 0 ≠ i :=
  ⟨length_generateDerangement r n, generateDerangement_perm_range r n (by omega),
    fun i hi => generateDerangement_no_fixed r n hn i hi⟩

/-- Witness for C5 at `n = 3` with a concrete oracle. -/
theorem c5_witness :
    (generateDerangement (fun i => i + 1) 3).length = 3 ∧
    (generateDerangement (fun i => i + 1) 3).Perm (List.range 3) ∧
    ∀ i < 3, (generateDerangement (fun i => i + 1) 3).getD i 0 ≠ i :=
  c5_generateDerangement_is_derangement 3 (fun i => i + 1) (by norm_num)

/-! ### The orbit structure: `generateDerangement` yields a single `n`-cycle -/

theorem iterIdx_eq_pow (r : Nat → Nat) (n : Nat) (hn : 2 ≤ n) :
    ∀ (k : Nat) (x : Nat), x < n →
      iterIdx (generateDerangement r n) k x = (sattoloPerm r (n - 1) ^ k) x := by
  intro k
  induction k with
  | zero => intro x _; simp [iterIdx]
  | succ k ih =>
    intro x hx
    have hfx : (generateDerangement r n).getD x 0 = sattoloPerm r (n - 1) x :=
      getD_generateDerangement r n (by omega) x hx
    have hlt : sattoloPerm r (n - 1) x < n := by
      have := sattoloPerm_lt r (n - 1) x (by omega); omega
    rw [iterIdx, Function.iterate_succ_apply]
    show iterIdx (generateDerangement r n) k ((generateDerangement r n).getD x 0) = _
    rw [hfx, ih _ hlt, pow_succ, Equiv.Perm.mul_apply]

/-- C10: for every `n >= 2` and every sequence of random draws, the
permutation returned by `generateDerangement(n)` is a single `n`-cycle:
starting from column 0, the iterates return to 0 after exactly `n`
steps and never earlier.  Consequently the double transposition
`[1, 0, 3, 2]` (where 0 returns to itself after 2 steps) is never
produced for `n = 4`, so the sampler is not uniform over all
derangements. -/
theorem c10_generateDerangement_single_cycle :
    (∀ (n : Nat) (r : Nat → Nat), 2 ≤ n →
      (∀ k, 0 < k → k < n → iterIdx (generateDerangement r n) k 0 ≠ 0) ∧
      iterIdx (generateDerangement r n) n 0 = 0) ∧
    (∀ r : Nat → Nat, generateDerangement r 4 ≠ [1, 0, 3, 2]) := by
  have main : ∀ (n : Nat) (r : Nat → Nat), 2 ≤ n →
      (∀ k, 0 < k → k < n → iterIdx (generateDerangement r n) k 0 ≠ 0) ∧
      iterIdx (generateDerangement r n) n 0 = 0 := by
    intro n r hn
    have hnd : (cycleList r (n - 1)).Nodup := cycleList_nodup r (n - 1)
    have hlen : (cycleList r (n - 1)).length = n := by rw [cycleList_length]; omega
    have h0mem : (0 : Nat) ∈ cycleList r (n - 1) := by rw [mem_cycleList]; omega
    have hidx : (cycleList r (n - 1)).indexOf 0 < (cycleList r (n - 1)).length :=
      List.indexOf_lt_length.mpr h0mem
    have hC0 : (cycleList r (n - 1)).get ⟨(cycleList r (n - 1)).indexOf 0, hidx⟩ = 0 := by
      rw [List.get_eq_getElem]
      exact List.getElem_indexOf hidx
    have hpow : ∀ k, iterIdx (generateDerangement r n) k 0 =
        (cycleList r (n - 1)).get ⟨((cycleList r (n - 1)).indexOf 0 + k) %
          (cycleList r (n - 1)).length, Nat.mod_lt _ (by omega)⟩ := by
      intro k
      rw [iterIdx_eq_pow r n hn k 0 (by omega), sattoloPerm_eq_formPerm]
      conv_lhs => rw [← hC0]
      rw [List.get_eq_getElem, List.get_eq_getElem]
      exact List.formPerm_pow_apply_getElem _ hnd k _ hidx
    have hinj := List.nodup_iff_injective_get.mp hnd
    constructor
    · intro k hk0 hkn h
      rw [hpow k] at h
      have heqFin := hinj (h.trans hC0.symm)
      have heq : ((cycleList r (n - 1)).indexOf 0 + k) % (cycleList r (n - 1)).length =
          (cycleList r (n - 1)).indexOf 0 := congrArg Fin.val heqFin
      rw [hlen] at heq hidx
      rcases Nat.lt_or_ge ((cycleList r (n - 1)).indexOf 0 + k) n with hlt | hge
      · rw [Nat.mod_eq_of_lt hlt] at heq; omega
      · rw [Nat.mod_eq_sub_mod hge,
          Nat.mod_eq_of_lt (by omega)] at heq
        omega
    · rw [hpow n]
      have heq : ((cycleList r (n - 1)).indexOf 0 + n) % (cycleList r (n - 1)).length =
          (cycleList r (n - 1)).indexOf 0 := by
        rw [hlen, Nat.add_mod_right, Nat.mod_eq_of_lt (by omega)]
      simp only [heq]
      exact hC0
  refine ⟨main, fun r h => ?_⟩
  have h2 := (main 4 r (by norm_num)).1 2 (by norm_num) (by norm_num)
  rw [h] at h2
  exact h2 rfl

/-- Witness for C10 at `n = 2` and a concrete oracle. -/
theorem c10_witness :
    iterIdx (generateDerangement (fun _ => 0) 2) 1 0 ≠ 0 ∧
    generateDerangement (fun _ => 0) 4 ≠ [1, 0, 3, 2] :=
  ⟨(c10_generateDerangement_single_cycle.1 2 (fun _ => 0) (by norm_num)).1 1
      (by norm_num) (by norm_num),
    c10_generateDerangement_single_cycle.2 (fun _ => 0)⟩

/-! ### The no-adjacent-rungs invariant -/

theorem noAdjP_buildRowGo (rb : Nat → Bool) :
    ∀ (k : Nat) (prev : Bool) (col : Nat), NoAdjP (buildRowGo rb k prev col) := by
  intro k
  induction k with
  | zero => intro prev col i; simp [buildRowGo, NoAdjP]
  | succ k ih =>
    intro prev col i
    rw [buildRowGo]
    cases i with
    | zero =>
      cases k with
      | zero => simp [buildRowGo]
      | succ k =>
        rw [buildRowGo]
        rintro ⟨h0, h1⟩
        rw [List.getD_cons_zero] at h0
        rw [List.getD_cons_succ, List.getD_cons_zero] at h1
        rw [h0] at h1
        simp at h1
    | succ i =>
      rintro ⟨h0, h1⟩
      rw [List.getD_cons_succ] at h0 h1
      exact ih _ (col + 1) i ⟨h0, h1⟩

theorem noAdjP_buildRandomRow (rb : Nat → Bool) (s : Nat) :
    NoAdjP (buildRandomRow rb s) :=
  noAdjP_buildRowGo rb s false 0

theorem getD_oneHotRow (s q i : Nat) :
    (oneHotRow s q).getD i false = (decide (i < s) && decide (i = q)) := by
  unfold oneHotRow
  by_cases h : i < s
  · rw [List.getD_eq_getElem _ _ (by simpa using h)]
    simp [h]
  · rw [List.getD_eq_default _ _ (by simpa using Nat.le_of_not_lt h)]
    simp [h]

theorem noAdjP_oneHotRow (s q : Nat) : NoAdjP (oneHotRow s q) := by
  intro i
  rw [getD_oneHotRow, getD_oneHotRow]
  rintro ⟨h0, h1⟩
  simp only [Bool.and_eq_true, decide_eq_true_eq] at h0 h1
  omega

theorem getD_emptyRow (s i : Nat) : (emptyRow s).getD i false = false := by
  unfold emptyRow
  by_cases h : i < s
  · rw [List.getD_eq_getElem _ _ (by simpa using h)]
    simp
  · rw [List.getD_eq_default _ _ (by simpa using Nat.le_of_not_lt h)]

theorem noAdjP_emptyRow (s : Nat) : NoAdjP (emptyRow s) := by
  intro i
  rw [getD_emptyRow]
  rintro ⟨h0, _⟩
  exact Bool.false_ne_true h0

theorem rowNoAdjacent_of_noAdjP (row : List Bool) (h : NoAdjP row) :
    rowNoAdjacent row = true := by
  rw [rowNoAdjacent, List.all_eq_true]
  intro i _
  by_cases h0 : i = 0
  · simp [h0]
  · rw [if_neg h0]
    have := h (i - 1)
    have hii : i - 1 + 1 = i := by omega
    rw [hii] at this
    cases hgi : row.getD i false
    · simp
    · cases hgi1 : row.getD (i - 1) false
      · simp
      · exact absurd ⟨hgi1, hgi⟩ this

theorem hasNoAdjacentRungs_of_gridNoAdj (g : List (List Bool)) (h : GridNoAdj g) :
    hasNoAdjacentRungs g = true := by
  rw [hasNoAdjacentRungs, List.all_eq_true]
  exact fun row hrow => rowNoAdjacent_of_noAdjP row (h row hrow)

theorem gridNoAdj_fillerBuild (f : Nat → Nat) (s : Nat) :
    ∀ (rem row : Nat), GridNoAdj (fillerBuild f s row rem) := by
  intro rem
  induction rem using Nat.strong_induction_on with
  | _ rem ih =>
    intro row
    match rem with
    | 0 => intro r hr; simp [fillerBuild] at hr
    | 1 =>
      intro r hr
      rw [fillerBuild] at hr
      simp only [List.mem_singleton] at hr
      rw [hr]; exact noAdjP_emptyRow s
    | k + 2 =>
      intro r hr
      rw [fillerBuild] at hr
      split at hr <;>
        simp only [List.mem_cons] at hr <;>
        rcases hr with rfl | rfl | hr <;>
        first
          | exact noAdjP_oneHotRow s _
          | exact noAdjP_emptyRow s
          | exact ih k (by omega) (row + 2) r hr

theorem gridNoAdj_permutationToRungs (b : Nat → Nat → Bool) (f : Nat → Nat)
    (targetPerm : List Nat) (rowCount : Nat) :
    GridNoAdj (permutationToRungs b f targetPerm rowCount) := by
  intro r hr
  rw [permutationToRungs] at hr
  simp only [List.mem_append] at hr
  rcases hr with (hr | hr) | hr
  · obtain ⟨row, _, rfl⟩ := List.mem_map.mp hr
    exact noAdjP_buildRandomRow _ _
  · obtain ⟨q, _, rfl⟩ := List.mem_map.mp hr
    exact noAdjP_oneHotRow _ _
  · exact gridNoAdj_fillerBuild f _ _ _ r hr

theorem generateLadder_rungs_false (b : Nat → Nat → Bool) (f : Nat → Nat) (dr : Nat → Nat)
    (n : Nat) :
    (generateLadder b f dr n false).rungs =
      (List.range (max 12 (n * 4))).map (fun row => buildRandomRow (b row) (n - 1)) :=
  rfl

theorem generateLadder_rungs_true (b : Nat → Nat → Bool) (f : Nat → Nat) (dr : Nat → Nat)
    (n : Nat) :
    (generateLadder b f dr n true).rungs =
      permutationToRungs b f (generateDerangement dr n) (max 12 (n * n)) :=
  rfl

theorem gridNoAdj_generateLadder (b : Nat → Nat → Bool) (f : Nat → Nat) (dr : Nat → Nat)
    (playerCount : Nat) (excludeSelf : Bool) :
    GridNoAdj (generateLadder b f dr playerCount excludeSelf).rungs := by
  cases excludeSelf
  · rw [generateLadder_rungs_false]
    intro r hr
    simp only [List.mem_map] at hr
    obtain ⟨row, _, rfl⟩ := hr
    exact noAdjP_buildRandomRow _ _
  · rw [generateLadder_rungs_true]
    exact gridNoAdj_permutationToRungs b f _ _

/-- C3: for every `playerCount >= 2`, both values of `excludeSelf`, and
every sequence of random draws, the rungs grid returned by
`generateLadder` satisfies `hasNoAdjacentRungs`: in no row are two
horizontally adjacent slots both true. -/
theorem c3_no_adjacent_rungs (b : Nat → Nat → Bool) (f : Nat → Nat) (dr : Nat → Nat)
    (playerCount : Nat) (excludeSelf : Bool) (_hn : 2 ≤ playerCount) :
    hasNoAdjacentRungs (generateLadder b f dr playerCount excludeSelf).rungs = true :=
  hasNoAdjacentRungs_of_gridNoAdj _
    (gridNoAdj_generateLadder b f dr playerCount excludeSelf)

/-- Witness for C3 at a concrete configuration. -/
theorem c3_witness :
    hasNoAdjacentRungs
      (generateLadder (fun r c => (r + c) % 2 = 0) (fun r => r) (fun i => i) 3 true).rungs
      = true :=
  c3_no_adjacent_rungs _ _ _ 3 true (by norm_num)

/-- C6: for every `playerCount`, the `rowCount` returned by
`generateLadder` equals `max(12, playerCount * 4)` when `excludeSelf` is
false and `max(12, playerCount * playerCount)` when it is true; in
particular it is always at least 12, is 16 for `(4, false)` and 25 for
`(5, true)`. -/
theorem c6_rowCount_policy (b : Nat → Nat → Bool) (f : Nat → Nat) (dr : Nat → Nat)
    (playerCount : Nat) :
    (generateLadder b f dr playerCount false).rowCount = max 12 (playerCount * 4) ∧
    (generateLadder b f dr playerCount true).rowCount =
      max 12 (playerCount * playerCount) ∧
    12 ≤ (generateLadder b f dr playerCount false).rowCount ∧
    12 ≤ (generateLadder b f dr playerCount true).rowCount ∧
    (generateLadder b f dr 4 false).rowCount = 16 ∧
    (generateLadder b f dr 5 true).rowCount = 25 := by
  refine ⟨rfl, rfl, ?_, ?_, rfl, rfl⟩ <;> exact Nat.le_max_left _ _

/-! ### Row stepping as a permutation of the columns -/

theorem simulateOne_nil (n col : Nat) : simulateOne [] n col = col := rfl

theorem simulateOne_cons (r : List Bool) (g : List (List Bool)) (n col : Nat) :
    simulateOne (r :: g) n col = simulateOne g n (rowStep n r col) := rfl

theorem simulateOne_append (g1 g2 : List (List Bool)) (n col : Nat) :
    simulateOne (g1 ++ g2) n col = simulateOne g2 n (simulateOne g1 n col) := by
  unfold simulateOne
  rw [List.foldl_append]

theorem rowStep_lt (n : Nat) (row : List Bool) (col : Nat) (h : col < n) :
    rowStep n row col < n := by
  unfold rowStep
  split
  · omega
  · split
    · rename_i h2
      obtain ⟨h21, _⟩ := h2
      omega
    · omega

theorem rowStep_involution (n : Nat) (row : List Bool) (hrow : NoAdjP row)
    (col : Nat) (h : col < n) : rowStep n row (rowStep n row col) = col := by
  by_cases c1 : 0 < col ∧ row.getD (col - 1) false = true
  · obtain ⟨c11, c12⟩ := c1
    have hv : rowStep n row col = col - 1 := by rw [rowStep, if_pos ⟨c11, c12⟩]
    rw [hv, rowStep]
    have hleft : ¬(0 < col - 1 ∧ row.getD (col - 1 - 1) false = true) := by
      rintro ⟨hp, hg⟩
      have hno := hrow (col - 2)
      have e1 : col - 1 - 1 = col - 2 := by omega
      have e2 : col - 2 + 1 = col - 1 := by omega
      rw [e1] at hg
      exact hno ⟨hg, by rw [e2]; exact c12⟩
    rw [if_neg hleft, if_pos ⟨by omega, c12⟩]
    omega
  · by_cases c2 : col < n - 1 ∧ row.getD col false = true
    · obtain ⟨c21, c22⟩ := c2
      have hv : rowStep n row col = col + 1 := by
        rw [rowStep, if_neg c1, if_pos ⟨c21, c22⟩]
      rw [hv, rowStep, if_pos ⟨Nat.succ_pos col, by simpa using c22⟩]
      omega
    · have hv : rowStep n row col = col := by rw [rowStep, if_neg c1, if_neg c2]
      rw [hv, rowStep, if_neg c1, if_neg c2]

theorem simulateOne_lt (g : List (List Bool)) (n : Nat) :
    ∀ col, col < n → simulateOne g n col < n := by
  induction g with
  | nil => intro col h; simpa [simulateOne_nil] using h
  | cons r g ih =>
    intro col h
    rw [simulateOne_cons]
    exact ih _ (rowStep_lt n r col h)

theorem simulateOne_inj (g : List (List Bool)) (n : Nat) (hg : GridNoAdj g) :
    ∀ x y, x < n → y < n → simulateOne g n x = simulateOne g n y → x = y := by
  induction g with
  | nil => intro x y _ _ h; simpa [simulateOne_nil] using h
  | cons r g ih =>
    intro x y hx hy h
    rw [simulateOne_cons, simulateOne_cons] at h
    have hr : NoAdjP r := hg r (List.mem_cons_self r g)
    have hg2 : GridNoAdj g := fun row hrow => hg row (List.mem_cons_of_mem r hrow)
    have := ih hg2 _ _ (rowStep_lt n r x hx) (rowStep_lt n r y hy) h
    calc x = rowStep n r (rowStep n r x) := (rowStep_involution n r hr x hx).symm
      _ = rowStep n r (rowStep n r y) := by rw [this]
      _ = y := rowStep_involution n r hr y hy

theorem simulatePermutation_length (g : List (List Bool)) (n : Nat) :
    (simulatePermutation g n).length = n := by
  rw [simulatePermutation, List.length_map, List.length_range]

theorem getD_simulatePermutation (g : List (List Bool)) (n x : Nat) (hx : x < n) :
    (simulatePermutation g n).getD x 0 = simulateOne g n x := by
  rw [simulatePermutation,
    List.getD_eq_getElem _ _ (by simpa using hx), List.getElem_map, List.getElem_range]

theorem simulatePermutation_nodup (g : List (List Bool)) (n : Nat) (hg : GridNoAdj g) :
    (simulatePermutation g n).Nodup := by
  rw [simulatePermutation]
  refine List.Nodup.map_on ?_ (List.nodup_range n)
  intro x hx y hy h
  rw [List.mem_range] at hx hy
  exact simulateOne_inj g n hg x y hx hy h

theorem simulatePermutation_perm_range (g : List (List Bool)) (n : Nat)
    (hg : GridNoAdj g) : (simulatePermutation g n).Perm (List.range n) := by
  have hnd := simulatePermutation_nodup g n hg
  have hsub : simulatePermutation g n ⊆ List.range n := by
    intro y hy
    rw [simulatePermutation, List.mem_map] at hy
    obtain ⟨x, hx, rfl⟩ := hy
    rw [List.mem_range] at hx ⊢
    exact simulateOne_lt g n x hx
  exact (List.subperm_of_subset hnd hsub).perm_of_length_le
    (by rw [simulatePermutation_length, List.length_range])

/-! ### The tracer agrees with the simulator on final columns -/

theorem traceRows_snd (rungs : List (List Bool)) (n : Nat) (cw ch y0 : ℚ) :
    ∀ (k row col : Nat), row + k ≤ rungs.length →
      (traceRows rungs n cw ch y0 row col k).2 =
        simulateOne (List.take k (List.drop row rungs)) n col := by
  intro k
  induction k with
  | zero => intro row col _; simp [traceRows, simulateOne_nil]
  | succ k ih =>
    intro row col hrow
    have hlt : row < rungs.length := by omega
    have hdrop : List.drop row rungs = rungs[row] :: List.drop (row + 1) rungs :=
      List.drop_eq_getElem_cons hlt
    have hget : rungs.getD row [] = rungs[row] := List.getD_eq_getElem _ _ hlt
    rw [hdrop, List.take_succ_cons, simulateOne_cons, traceRows]
    simp only [hget]
    split
    · rename_i h1
      rw [ih (row + 1) (col - 1) (by omega)]
      have : rowStep n rungs[row] col = col - 1 := by rw [rowStep, if_pos h1]
      rw [this]
    · split
      · rename_i h1 h2
        rw [ih (row + 1) (col + 1) (by omega)]
        have : rowStep n rungs[row] col = col + 1 := by
          rw [rowStep, if_neg h1, if_pos h2]
        rw [this]
      · rename_i h1 h2
        rw [ih (row + 1) col (by omega)]
        have : rowStep n rungs[row] col = col := by rw [rowStep, if_neg h1, if_neg h2]
        rw [this]

theorem traceLadderPath_finalColumn (L : LadderData) (h : L.rungs.length = L.rowCount)
    (s n : Nat) (cw ch y0 : ℚ) :
    (traceLadderPath L s n cw ch y0).finalColumn = simulateOne L.rungs n s := by
  show (traceRows L.rungs n cw ch y0 0 s L.rowCount).2 = _
  rw [traceRows_snd L.rungs n cw ch y0 L.rowCount 0 s (by omega), List.drop_zero, ← h,
    List.take_length]

theorem computeAllResults_eq_simulate (L : LadderData)
    (h : L.rungs.length = L.rowCount) (n : Nat) :
    computeAllResults L n = simulatePermutation L.rungs n := by
  unfold computeAllResults simulatePermutation
  refine List.map_congr_left ?_
  intro x _
  exact traceLadderPath_finalColumn L h x n 1 1 0

/-! ### Shape of the generated grid -/

theorem length_fillerBuild (f : Nat → Nat) (s : Nat) :
    ∀ (rem row : Nat), (fillerBuild f s row rem).length = rem := by
  intro rem
  induction rem using Nat.strong_induction_on with
  | _ rem ih =>
    intro row
    match rem with
    | 0 => rfl
    | 1 => rfl
    | k + 2 =>
      rw [fillerBuild]
      split <;> simp only [List.length_cons] <;> rw [ih k (by omega) (row + 2)]

theorem chaosRowsCount_le (n rowCount : Nat) : chaosRowsCount n rowCount ≤ rowCount := by
  rw [chaosRowsCount]
  omega

theorem length_permutationToRungs (b : Nat → Nat → Bool) (f : Nat → Nat)
    (targetPerm : List Nat) (rowCount : Nat) :
    (permutationToRungs b f targetPerm rowCount).length = rowCount := by
  have hc := chaosRowsCount_le targetPerm.length rowCount
  have hp : (placedSwaps b targetPerm rowCount).length ≤
      rowCount - chaosRowsCount targetPerm.length rowCount := by
    rw [placedSwaps, List.length_take]
    omega
  rw [permutationToRungs]
  simp only [List.length_append, List.length_map, length_fillerBuild]
  rw [chaosGridOf]
  simp only [List.length_map, List.length_range]
  omega

theorem generateLadder_length_rungs (b : Nat → Nat → Bool) (f : Nat → Nat)
    (dr : Nat → Nat) (n : Nat) (es : Bool) :
    (generateLadder b f dr n es).rungs.length = (generateLadder b f dr n es).rowCount := by
  cases es
  · rw [generateLadder_rungs_false]
    simp only [List.length_map, List.length_range]
    rfl
  · rw [generateLadder_rungs_true, length_permutationToRungs]
    rfl

/-- C4: for every layout produced by `generateLadder` with
`playerCount = n >= 2` (either mode, any random draws),
`computeAllResults(layout, n)` returns an array of length `n` that is a
bijection on columns: it contains each integer of `0..n-1` exactly
once. -/
theorem c4_computeAllResults_bijection (b : Nat → Nat → Bool) (f : Nat → Nat)
    (dr : Nat → Nat) (n : Nat) (es : Bool) (_hn : 2 ≤ n) :
    (computeAllResults (generateLadder b f dr n es) n).length = n ∧
    (computeAllResults (generateLadder b f dr n es) n).Perm (List.range n) := by
  have hshape := generateLadder_length_rungs b f dr n es
  rw [computeAllResults_eq_simulate _ hshape n]
  exact ⟨simulatePermutation_length _ n,
    simulatePermutation_perm_range _ n (gridNoAdj_generateLadder b f dr n es)⟩

/-! ### Single-rung rows act as adjacent transpositions -/

theorem rowStep_oneHot (n q : Nat) (hq : q < n - 1) (x : Nat) :
    rowStep n (oneHotRow (n - 1) q) x = slotAction q x := by
  unfold rowStep slotAction
  by_cases hx : x = q
  · have hleft : ¬(0 < x ∧ (oneHotRow (n - 1) q).getD (x - 1) false = true) := by
      rintro ⟨h0, hg⟩
      rw [getD_oneHotRow] at hg
      simp only [Bool.and_eq_true, decide_eq_true_eq] at hg
      omega
    rw [if_neg hleft, if_pos ⟨hx ▸ hq, by rw [getD_oneHotRow, hx]; simp [hq]⟩, if_pos hx, hx]
  · by_cases hx1 : x = q + 1
    · subst hx1
      rw [if_pos ⟨Nat.succ_pos q, by rw [Nat.add_sub_cancel, getD_oneHotRow]; simp [hq]⟩,
        if_neg (by omega : ¬(q + 1 = q)), if_pos rfl]
      omega
    · have hleft : ¬(0 < x ∧ (oneHotRow (n - 1) q).getD (x - 1) false = true) := by
        rintro ⟨h0, hg⟩
        rw [getD_oneHotRow] at hg
        simp only [Bool.and_eq_true, decide_eq_true_eq] at hg
        omega
      have hright : ¬(x < n - 1 ∧ (oneHotRow (n - 1) q).getD x false = true) := by
        rintro ⟨_, hg⟩
        rw [getD_oneHotRow] at hg
        simp only [Bool.and_eq_true, decide_eq_true_eq] at hg
        exact hx hg.2
      rw [if_neg hleft, if_neg hright, if_neg hx, if_neg hx1]

theorem slotAction_involution (q x : Nat) : slotAction q (slotAction q x) = x := by
  unfold slotAction
  split_ifs <;> omega

theorem slotAction_lt (n q x : Nat) (hq : q < n - 1) (hx : x < n) :
    slotAction q x < n := by
  unfold slotAction
  split_ifs <;> omega

theorem applySlots_nil (x : Nat) : applySlots [] x = x := rfl

theorem applySlots_cons (q : Nat) (L : List Nat) (x : Nat) :
    applySlots (q :: L) x = applySlots L (slotAction q x) := rfl

theorem applySlots_lt (L : List Nat) (n : Nat) (hL : ∀ q ∈ L, q < n - 1) :
    ∀ x, x < n → applySlots L x < n := by
  induction L with
  | nil => intro x hx; simpa [applySlots_nil] using hx
  | cons q L ih =>
    intro x hx
    rw [applySlots_cons]
    exact ih (fun p hp => hL p (List.mem_cons_of_mem q hp)) _
      (slotAction_lt n q x (hL q (List.mem_cons_self q L)) hx)

theorem simulateOne_oneHot_map (L : List Nat) (n : Nat) (hL : ∀ q ∈ L, q < n - 1)
    (x : Nat) : simulateOne (L.map (oneHotRow (n - 1))) n x = applySlots L x := by
  induction L generalizing x with
  | nil => rfl
  | cons q L ih =>
    rw [List.map_cons, simulateOne_cons, applySlots_cons,
      rowStep_oneHot n q (hL q (List.mem_cons_self q L)) x,
      ih (fun p hp => hL p (List.mem_cons_of_mem q hp))]

theorem rowStep_emptyRow (n s x : Nat) : rowStep n (emptyRow s) x = x := by
  have h1 : ¬(0 < x ∧ (emptyRow s).getD (x - 1) false = true) := by
    rintro ⟨_, hg⟩
    rw [getD_emptyRow] at hg
    exact Bool.false_ne_true hg
  have h2 : ¬(x < n - 1 ∧ (emptyRow s).getD x false = true) := by
    rintro ⟨_, hg⟩
    rw [getD_emptyRow] at hg
    exact Bool.false_ne_true hg
  rw [rowStep, if_neg h1, if_neg h2]

theorem simulateOne_fillerBuild (f : Nat → Nat) (n : Nat) (hn : 2 ≤ n) :
    ∀ (rem row x : Nat), simulateOne (fillerBuild f (n - 1) row rem) n x = x := by
  intro rem
  induction rem using Nat.strong_induction_on with
  | _ rem ih =>
    intro row x
    match rem with
    | 0 => rfl
    | 1 => rw [fillerBuild]; rw [simulateOne_cons, simulateOne_nil, rowStep_emptyRow]
    | k + 2 =>
      have hcol : f row % (n - 1) < n - 1 := Nat.mod_lt _ (by omega)
      rw [fillerBuild]
      have hcond : (!(decide (0 < f row % (n - 1)) &&
            (emptyRow (n - 1)).getD (f row % (n - 1) - 1) false) &&
          !(decide (f row % (n - 1) < n - 1 - 1) &&
            (emptyRow (n - 1)).getD (f row % (n - 1) + 1) false)) = true := by
        rw [getD_emptyRow, getD_emptyRow]
        simp
      rw [if_pos hcond, simulateOne_cons, simulateOne_cons,
        rowStep_oneHot n _ hcol, rowStep_oneHot n _ hcol, slotAction_involution,
        ih k (by omega) (row + 2) x]

theorem simulateOne_replicate_empty (n s : Nat) :
    ∀ (rem x : Nat), simulateOne (List.replicate rem (emptyRow s)) n x = x := by
  intro rem
  induction rem with
  | zero => intro x; rfl
  | succ k ih =>
    intro x
    rw [List.replicate_succ, simulateOne_cons, rowStep_emptyRow, ih]

/-- C7: the filler phase of exclude-self generation never alters the
realized permutation: for every grid state at the start of the filler
loop (rows from `correctionRow` onward empty) and every sequence of
random slot choices, the grid after the filler loop induces, via
`simulatePermutation` and `computeAllResults`, exactly the same
column-to-column mapping as the grid before it, because rungs are only
inserted in matched same-slot pairs in two consecutive rows. -/
theorem c7_filler_preserves_permutation (G : List (List Bool)) (f : Nat → Nat)
    (n row rem : Nat) (hn : 2 ≤ n) :
    simulatePermutation (G ++ fillerBuild f (n - 1) row rem) n =
      simulatePermutation (G ++ List.replicate rem (emptyRow (n - 1))) n ∧
    computeAllResults
        ⟨G ++ fillerBuild f (n - 1) row rem,
          (G ++ fillerBuild f (n - 1) row rem).length⟩ n =
      computeAllResults
        ⟨G ++ List.replicate rem (emptyRow (n - 1)),
          (G ++ List.replicate rem (emptyRow (n - 1))).length⟩ n := by
  have hsim : simulatePermutation (G ++ fillerBuild f (n - 1) row rem) n =
      simulatePermutation (G ++ List.replicate rem (emptyRow (n - 1))) n := by
    unfold simulatePermutation
    refine List.map_congr_left ?_
    intro x _
    rw [simulateOne_append, simulateOne_append,
      simulateOne_fillerBuild f n hn rem row, simulateOne_replicate_empty]
  refine ⟨hsim, ?_⟩
  rw [computeAllResults_eq_simulate _ rfl n, computeAllResults_eq_simulate _ rfl n]
  exact hsim

/-- Witness for C7 at a concrete grid state. -/
theorem c7_witness :
    simulatePermutation ([[true]] ++ fillerBuild (fun r => r) (2 - 1) 1 3) 2 =
      simulatePermutation ([[true]] ++ List.replicate 3 (emptyRow (2 - 1))) 2 ∧
    computeAllResults
        ⟨[[true]] ++ fillerBuild (fun r => r) (2 - 1) 1 3,
          ([[true]] ++ fillerBuild (fun r => r) (2 - 1) 1 3).length⟩ 2 =
      computeAllResults
        ⟨[[true]] ++ List.replicate 3 (emptyRow (2 - 1)),
          ([[true]] ++ List.replicate 3 (emptyRow (2 - 1))).length⟩ 2 :=
  c7_filler_preserves_permutation [[true]] (fun r => r) 2 1 3 (by norm_num)

/-! ### Pointwise facts about `List.set` and nodup lists -/

theorem getD_set_ne (l : List Nat) (a v z : Nat) (h : a ≠ z) :
    (l.set a v).getD z 0 = l.getD z 0 := by
  by_cases hz : z < l.length
  · rw [List.getD_eq_getElem _ _ (by simpa using hz), List.getElem_set_ne h,
      List.getD_eq_getElem _ _ hz]
  · rw [List.getD_eq_default _ _ (by simpa using Nat.le_of_not_lt hz),
      List.getD_eq_default _ _ (Nat.le_of_not_lt hz)]

theorem getD_set_self (l : List Nat) (a v : Nat) (h : a < l.length) :
    (l.set a v).getD a 0 = v := by
  rw [List.getD_eq_getElem _ _ (by simpa using h), List.getElem_set_self (by simpa using h)]

theorem nodup_getD_inj (p : List Nat) (hnd : p.Nodup) (a b : Nat)
    (ha : a < p.length) (hb : b < p.length) (h : p.getD a 0 = p.getD b 0) : a = b := by
  rw [List.getD_eq_getElem _ _ ha, List.getD_eq_getElem _ _ hb] at h
  exact hnd.getElem_inj_iff.mp h

theorem nodup_of_getD_inj (p : List Nat)
    (h : ∀ a b, a < p.length → b < p.length → p.getD a 0 = p.getD b 0 → a = b) :
    p.Nodup := by
  rw [List.nodup_iff_injective_get]
  intro a b hab
  refine Fin.ext (h a b a.isLt b.isLt ?_)
  rw [List.getD_eq_getElem _ _ a.isLt, List.getD_eq_getElem _ _ b.isLt]
  simpa using hab

theorem exists_getD_eq (p : List Nat) (n : Nat) (hlen : p.length = n) (hnd : p.Nodup)
    (hvals : ∀ v ∈ p, v < n) (z : Nat) (hz : z < n) :
    ∃ i, i < n ∧ p.getD i 0 = z := by
  have hperm : p.Perm (List.range n) := by
    refine (List.subperm_of_subset hnd ?_).perm_of_length_le (by rw [hlen, List.length_range])
    intro v hv
    rw [List.mem_range]
    exact hvals v hv
  have hzmem : z ∈ p := hperm.mem_iff.mpr (List.mem_range.mpr hz)
  obtain ⟨i, hi, hpi⟩ := List.mem_iff_getElem.mp hzmem
  exact ⟨i, by omega, by rw [List.getD_eq_getElem _ _ hi]; exact hpi⟩

theorem map_getD_range (l : List Nat) (n : Nat) (hlen : l.length = n) :
    (List.range n).map (fun i => l.getD i 0) = l := by
  apply List.ext_getElem
  · simp [hlen]
  · intro i h1 h2
    rw [List.getElem_map, List.getElem_range, List.getD_eq_getElem _ _ h2]

/-! ### The positional inverse `invertPerm` -/

theorem foldl_set_length (p idxs init : List Nat) :
    (idxs.foldl (fun inv i => inv.set (p.getD i 0) i) init).length = init.length := by
  induction idxs generalizing init with
  | nil => rfl
  | cons j t ih => rw [List.foldl_cons, ih, List.length_set]

theorem foldl_set_untouched (p idxs : List Nat) (z : Nat)
    (h : ∀ j ∈ idxs, p.getD j 0 ≠ z) (init : List Nat) :
    (idxs.foldl (fun inv i => inv.set (p.getD i 0) i) init).getD z 0 = init.getD z 0 := by
  induction idxs generalizing init with
  | nil => rfl
  | cons j t ih =>
    rw [List.foldl_cons, ih (fun m hm => h m (List.mem_cons_of_mem j hm)),
      getD_set_ne _ _ _ _ (h j (List.mem_cons_self j t))]

theorem foldl_set_hit (p : List Nat) :
    ∀ (idxs : List Nat), idxs.Nodup →
      (∀ a ∈ idxs, ∀ b ∈ idxs, p.getD a 0 = p.getD b 0 → a = b) →
      ∀ (init : List Nat) (i : Nat), i ∈ idxs → p.getD i 0 < init.length →
        (idxs.foldl (fun inv i => inv.set (p.getD i 0) i) init).getD (p.getD i 0) 0 = i := by
  intro idxs
  induction idxs with
  | nil => intro _ _ init i hi; simp at hi
  | cons j t ih =>
    intro hnd hinj init i hi hlen
    obtain ⟨hjt, hndt⟩ := List.nodup_cons.mp hnd
    rw [List.foldl_cons]
    rcases List.mem_cons.mp hi with heq | hit
    · subst heq
      rw [foldl_set_untouched]
      · exact getD_set_self _ _ _ hlen
      · intro m hm hpm
        have : m = i := hinj m (List.mem_cons_of_mem i hm) i (List.mem_cons_self i t) hpm
        subst this
        exact hjt hm
    · exact ih hndt
        (fun a ha b hb => hinj a (List.mem_cons_of_mem j ha) b (List.mem_cons_of_mem j hb))
        _ i hit (by rw [List.length_set]; exact hlen)

theorem length_invertPerm (p : List Nat) : (invertPerm p).length = p.length := by
  rw [invertPerm, foldl_set_length, List.length_replicate]

theorem getD_invertPerm (p : List Nat) (hnd : p.Nodup)
    (hvals : ∀ v ∈ p, v < p.length) (i : Nat) (hi : i < p.length) :
    (invertPerm p).getD (p.getD i 0) 0 = i := by
  rw [invertPerm]
  refine foldl_set_hit p (List.range p.length) (List.nodup_range _) ?_ _ i
    (List.mem_range.mpr hi) ?_
  · intro a ha b hb heq
    rw [List.mem_range] at ha hb
    exact nodup_getD_inj p hnd a b ha hb heq
  · rw [List.length_replicate]
    refine hvals _ ?_
    rw [List.getD_eq_getElem _ _ hi]
    exact List.getElem_mem _

theorem getD_set_cases (l : List Nat) (a v z : Nat) :
    (l.set a v).getD z 0 = if a = z ∧ a < l.length then v else l.getD z 0 := by
  by_cases h : a = z ∧ a < l.length
  · rw [if_pos h, ← h.1, getD_set_self _ _ _ h.2]
  · rw [if_neg h]
    by_cases ha : a = z
    · subst ha
      have : l.length ≤ a := by omega
      rw [List.set_eq_of_length_le this]
    · exact getD_set_ne _ _ _ _ ha

theorem foldl_set_vals_lt (p : List Nat) (n : Nat) :
    ∀ (idxs : List Nat), (∀ j ∈ idxs, j < n) →
      ∀ (init : List Nat), (∀ z, init.getD z 0 < n) →
      ∀ z, (idxs.foldl (fun inv i => inv.set (p.getD i 0) i) init).getD z 0 < n := by
  intro idxs
  induction idxs with
  | nil => intro _ init hinit z; exact hinit z
  | cons j t ih =>
    intro hidx init hinit z
    rw [List.foldl_cons]
    refine ih (fun m hm => hidx m (List.mem_cons_of_mem j hm)) _ ?_ z
    intro w
    rw [getD_set_cases]
    split
    · exact hidx j (List.mem_cons_self j t)
    · exact hinit w

theorem getD_invertPerm_lt (p : List Nat) (n : Nat) (hlen : p.length = n) (hn : 0 < n) :
    ∀ z, (invertPerm p).getD z 0 < n := by
  intro z
  rw [invertPerm]
  refine foldl_set_vals_lt p n _ ?_ _ ?_ z
  · intro j hj
    rw [List.mem_range] at hj
    omega
  · intro w
    by_cases hw : w < p.length
    · rw [List.getD_eq_getElem _ _ (by simpa using hw)]
      simpa using hn
    · rw [List.getD_eq_default _ _ (by simpa using Nat.le_of_not_lt hw)]
      exact hn

theorem invertPerm_right_inverse (p : List Nat) (n : Nat) (hlen : p.length = n)
    (hnd : p.Nodup) (hvals : ∀ v ∈ p, v < n) (z : Nat) (hz : z < n) :
    p.getD ((invertPerm p).getD z 0) 0 = z := by
  obtain ⟨i, hi, hpi⟩ := exists_getD_eq p n hlen hnd hvals z hz
  rw [← hpi, getD_invertPerm p hnd (by rw [hlen]; exact hvals) i (by omega)]

theorem invertPerm_nodup (p : List Nat) (n : Nat) (hlen : p.length = n)
    (hnd : p.Nodup) (hvals : ∀ v ∈ p, v < n) : (invertPerm p).Nodup := by
  refine nodup_of_getD_inj _ ?_
  intro a b ha hb h
  rw [length_invertPerm, hlen] at ha hb
  have h2 := invertPerm_right_inverse p n hlen hnd hvals a ha
  rw [h, invertPerm_right_inverse p n hlen hnd hvals b hb] at h2
  omega

/-! ### The selection-sort reduction to adjacent transpositions -/

theorem mem_iff_getD (l : List Nat) (x : Nat) :
    x ∈ l ↔ ∃ i, i < l.length ∧ l.getD i 0 = x := by
  rw [List.mem_iff_getElem]
  constructor
  · rintro ⟨i, hi, rfl⟩
    exact ⟨i, hi, List.getD_eq_getElem _ _ hi⟩
  · rintro ⟨i, hi, h⟩
    exact ⟨i, hi, by rw [← List.getD_eq_getElem _ 0 hi, h]⟩

theorem transpApply_involution (a b x : Nat) :
    transpApply a b (transpApply a b x) = x := by
  unfold transpApply
  split_ifs <;> omega

theorem transp_slot (pos x : Nat) (h : 1 ≤ pos) :
    transpApply pos (pos - 1) (slotAction (pos - 1) x) = x := by
  unfold transpApply slotAction
  split_ifs <;> omega

theorem getD_listSwap_other (st : List Nat) (pos j : Nat) (h1 : 1 ≤ pos)
    (hpos : pos < st.length) (hj1 : j ≠ pos - 1) (hj2 : j ≠ pos) :
    (listSwap st pos (pos - 1)).getD j 0 = st.getD j 0 := by
  rw [getD_listSwap st pos (pos - 1) (by omega) hpos (by omega)]
  unfold transpApply
  rw [if_neg hj2, if_neg hj1]

theorem getD_listSwap_src (st : List Nat) (pos : Nat) (h1 : 1 ≤ pos)
    (hpos : pos < st.length) :
    (listSwap st pos (pos - 1)).getD (pos - 1) 0 = st.getD pos 0 := by
  rw [getD_listSwap st pos (pos - 1) (by omega) hpos (by omega)]
  unfold transpApply
  rw [if_neg (by omega : ¬(pos - 1 = pos)), if_pos rfl]

theorem mem_listSwap_adj (st : List Nat) (pos : Nat) (h1 : 1 ≤ pos)
    (hpos : pos < st.length) (x : Nat) :
    x ∈ listSwap st pos (pos - 1) ↔ x ∈ st := by
  rw [mem_iff_getD, mem_iff_getD]
  constructor
  · rintro ⟨i, hi, hx⟩
    rw [length_listSwap] at hi
    rw [getD_listSwap st pos (pos - 1) (by omega) hpos (by omega)] at hx
    refine ⟨transpApply pos (pos - 1) i, ?_, hx⟩
    unfold transpApply
    split_ifs <;> omega
  · rintro ⟨i, hi, hx⟩
    refine ⟨transpApply pos (pos - 1) i, ?_, ?_⟩
    · rw [length_listSwap]
      unfold transpApply
      split_ifs <;> omega
    · rw [getD_listSwap st pos (pos - 1) (by omega) hpos (by omega),
        transpApply_involution, hx]

theorem moveLeft_length_state :
    ∀ (k : Nat) (st : List Nat) (pos : Nat), (moveLeft st pos k).2.length = st.length := by
  intro k
  induction k with
  | zero => intro st pos; rfl
  | succ k ih =>
    intro st pos
    rw [moveLeft]
    show (moveLeft (listSwap st pos (pos - 1)) (pos - 1) k).2.length = _
    rw [ih, length_listSwap]

theorem moveLeft_length_slots :
    ∀ (k : Nat) (st : List Nat) (pos : Nat), (moveLeft st pos k).1.length = k := by
  intro k
  induction k with
  | zero => intro st pos; rfl
  | succ k ih =>
    intro st pos
    rw [moveLeft]
    show ((pos - 1) :: (moveLeft (listSwap st pos (pos - 1)) (pos - 1) k).1).length = _
    rw [List.length_cons, ih]

theorem moveLeft_slots_mem :
    ∀ (k : Nat) (st : List Nat) (pos : Nat), k ≤ pos →
      ∀ q ∈ (moveLeft st pos k).1, pos - k ≤ q ∧ q < pos := by
  intro k
  induction k with
  | zero => intro st pos _ q hq; simp [moveLeft] at hq
  | succ k ih =>
    intro st pos hk q hq
    rw [moveLeft] at hq
    rcases List.mem_cons.mp hq with rfl | hq2
    · omega
    · have := ih (listSwap st pos (pos - 1)) (pos - 1) (by omega) q hq2
      omega

theorem moveLeft_track :
    ∀ (k : Nat) (st : List Nat) (pos : Nat), k ≤ pos → pos < st.length →
      ∀ x, (moveLeft st pos k).2.getD (applySlots (moveLeft st pos k).1 x) 0 =
        st.getD x 0 := by
  intro k
  induction k with
  | zero => intro st pos _ _ x; rfl
  | succ k ih =>
    intro st pos hk hpos x
    rw [moveLeft]
    show (moveLeft (listSwap st pos (pos - 1)) (pos - 1) k).2.getD
      (applySlots ((pos - 1) :: (moveLeft (listSwap st pos (pos - 1)) (pos - 1) k).1) x) 0 = _
    rw [applySlots_cons,
      ih (listSwap st pos (pos - 1)) (pos - 1) (by omega)
        (by rw [length_listSwap]; omega),
      getD_listSwap st pos (pos - 1) (by omega) hpos (by omega),
      transp_slot pos x (by omega)]

theorem moveLeft_front :
    ∀ (k : Nat) (st : List Nat) (pos : Nat), k ≤ pos → pos < st.length →
      ∀ j, j < pos - k → (moveLeft st pos k).2.getD j 0 = st.getD j 0 := by
  intro k
  induction k with
  | zero => intro st pos _ _ j _; rfl
  | succ k ih =>
    intro st pos hk hpos j hj
    rw [moveLeft]
    show (moveLeft (listSwap st pos (pos - 1)) (pos - 1) k).2.getD j 0 = _
    rw [ih (listSwap st pos (pos - 1)) (pos - 1) (by omega)
        (by rw [length_listSwap]; omega) j (by omega),
      getD_listSwap_other st pos j (by omega) hpos (by omega) (by omega)]

theorem moveLeft_landing :
    ∀ (k : Nat) (st : List Nat) (pos : Nat), k ≤ pos → pos < st.length →
      (moveLeft st pos k).2.getD (pos - k) 0 = st.getD pos 0 := by
  intro k
  induction k with
  | zero => intro st pos _ _; rfl
  | succ k ih =>
    intro st pos hk hpos
    rw [moveLeft]
    show (moveLeft (listSwap st pos (pos - 1)) (pos - 1) k).2.getD (pos - (k + 1)) 0 = _
    have he : pos - (k + 1) = pos - 1 - k := by omega
    rw [he, ih (listSwap st pos (pos - 1)) (pos - 1) (by omega)
        (by rw [length_listSwap]; omega),
      getD_listSwap_src st pos (by omega) hpos]

theorem moveLeft_mem :
    ∀ (k : Nat) (st : List Nat) (pos : Nat), k ≤ pos → pos < st.length →
      ∀ x, (x ∈ (moveLeft st pos k).2 ↔ x ∈ st) := by
  intro k
  induction k with
  | zero => intro st pos _ _ x; rfl
  | succ k ih =>
    intro st pos hk hpos x
    rw [moveLeft]
    show x ∈ (moveLeft (listSwap st pos (pos - 1)) (pos - 1) k).2 ↔ _
    rw [ih (listSwap st pos (pos - 1)) (pos - 1) (by omega)
        (by rw [length_listSwap]; omega),
      mem_listSwap_adj st pos (by omega) hpos]

theorem applySlots_append (L1 L2 : List Nat) (x : Nat) :
    applySlots (L1 ++ L2) x = applySlots L2 (applySlots L1 x) := by
  unfold applySlots
  rw [List.foldl_append]

theorem selSortAux_fst_of_mem (cInv : List Nat) (i k : Nat) (st : List Nat)
    (hv : cInv.getD i 0 ∈ st) :
    (selSortAux cInv i (k + 1) st).1 =
      (moveLeft st (st.indexOf (cInv.getD i 0)) (st.indexOf (cInv.getD i 0) - i)).1 ++
        (selSortAux cInv (i + 1) k
          (moveLeft st (st.indexOf (cInv.getD i 0))
            (st.indexOf (cInv.getD i 0) - i)).2).1 := by
  show ((if cInv.getD i 0 ∈ st then
      moveLeft st (st.indexOf (cInv.getD i 0)) (st.indexOf (cInv.getD i 0) - i)
    else ([], st)).1 ++
      (selSortAux cInv (i + 1) k
        (if cInv.getD i 0 ∈ st then
          moveLeft st (st.indexOf (cInv.getD i 0)) (st.indexOf (cInv.getD i 0) - i)
        else ([], st)).2).1) = _
  rw [if_pos hv]

theorem selSortAux_snd_of_mem (cInv : List Nat) (i k : Nat) (st : List Nat)
    (hv : cInv.getD i 0 ∈ st) :
    (selSortAux cInv i (k + 1) st).2 =
      (selSortAux cInv (i + 1) k
        (moveLeft st (st.indexOf (cInv.getD i 0))
          (st.indexOf (cInv.getD i 0) - i)).2).2 := by
  show (selSortAux cInv (i + 1) k
      (if cInv.getD i 0 ∈ st then
        moveLeft st (st.indexOf (cInv.getD i 0)) (st.indexOf (cInv.getD i 0) - i)
      else ([], st)).2).2 = _
  rw [if_pos hv]

theorem selSortAux_fst_of_not_mem (cInv : List Nat) (i k : Nat) (st : List Nat)
    (hv : cInv.getD i 0 ∉ st) :
    (selSortAux cInv i (k + 1) st).1 = (selSortAux cInv (i + 1) k st).1 := by
  show ((if cInv.getD i 0 ∈ st then
      moveLeft st (st.indexOf (cInv.getD i 0)) (st.indexOf (cInv.getD i 0) - i)
    else ([], st)).1 ++
      (selSortAux cInv (i + 1) k
        (if cInv.getD i 0 ∈ st then
          moveLeft st (st.indexOf (cInv.getD i 0)) (st.indexOf (cInv.getD i 0) - i)
        else ([], st)).2).1) = _
  rw [if_neg hv, List.nil_append]

theorem selSortAux_snd_of_not_mem (cInv : List Nat) (i k : Nat) (st : List Nat)
    (hv : cInv.getD i 0 ∉ st) :
    (selSortAux cInv i (k + 1) st).2 = (selSortAux cInv (i + 1) k st).2 := by
  show (selSortAux cInv (i + 1) k
      (if cInv.getD i 0 ∈ st then
        moveLeft st (st.indexOf (cInv.getD i 0)) (st.indexOf (cInv.getD i 0) - i)
      else ([], st)).2).2 = _
  rw [if_neg hv]

theorem selSortAux_state_length (cInv : List Nat) :
    ∀ (fuel i : Nat) (st : List Nat),
      (selSortAux cInv i fuel st).2.length = st.length := by
  intro fuel
  induction fuel with
  | zero => intro i st; rfl
  | succ k ih =>
    intro i st
    by_cases hv : cInv.getD i 0 ∈ st
    · rw [selSortAux_snd_of_mem cInv i k st hv, ih, moveLeft_length_state]
    · rw [selSortAux_snd_of_not_mem cInv i k st hv, ih]

theorem selSortAux_track (cInv : List Nat) :
    ∀ (fuel i : Nat) (st : List Nat) (x : Nat),
      (selSortAux cInv i fuel st).2.getD
        (applySlots (selSortAux cInv i fuel st).1 x) 0 = st.getD x 0 := by
  intro fuel
  induction fuel with
  | zero => intro i st x; rfl
  | succ k ih =>
    intro i st x
    by_cases hv : cInv.getD i 0 ∈ st
    · rw [selSortAux_snd_of_mem cInv i k st hv, selSortAux_fst_of_mem cInv i k st hv,
        applySlots_append, ih,
        moveLeft_track _ st (st.indexOf (cInv.getD i 0)) (by omega)
          (List.indexOf_lt_length.mpr hv)]
    · rw [selSortAux_snd_of_not_mem cInv i k st hv,
        selSortAux_fst_of_not_mem cInv i k st hv, ih]

theorem selSortAux_slots_lt (cInv : List Nat) (n : Nat) :
    ∀ (fuel i : Nat) (st : List Nat), st.length = n →
      ∀ q ∈ (selSortAux cInv i fuel st).1, q < n - 1 := by
  intro fuel
  induction fuel with
  | zero => intro i st _ q hq; simp [selSortAux] at hq
  | succ k ih =>
    intro i st hlen q hq
    by_cases hv : cInv.getD i 0 ∈ st
    · rw [selSortAux_fst_of_mem cInv i k st hv] at hq
      have hpos : st.indexOf (cInv.getD i 0) < st.length := List.indexOf_lt_length.mpr hv
      rcases List.mem_append.mp hq with hq1 | hq2
      · have := moveLeft_slots_mem _ st (st.indexOf (cInv.getD i 0)) (by omega) q hq1
        omega
      · exact ih (i + 1) _ (by rw [moveLeft_length_state, hlen]) q hq2
    · rw [selSortAux_fst_of_not_mem cInv i k st hv] at hq
      exact ih (i + 1) st hlen q hq

theorem triangle_succ (k : Nat) : (k + 1) * k / 2 = k * (k - 1) / 2 + k := by
  cases k with
  | zero => rfl
  | succ k =>
    have h : (k + 1 + 1) * (k + 1) = (k + 1) * k + (k + 1) * 2 := by ring
    rw [Nat.succ_sub_one, h, Nat.add_mul_div_right _ _ (by norm_num : (0 : Nat) < 2)]

theorem selSortAux_slots_count (cInv : List Nat) (n : Nat) :
    ∀ (fuel i : Nat) (st : List Nat), st.length = n → i + fuel = n →
      (selSortAux cInv i fuel st).1.length ≤ fuel * (fuel - 1) / 2 := by
  intro fuel
  induction fuel with
  | zero => intro i st _ _; simp [selSortAux]
  | succ k ih =>
    intro i st hlen hin
    have h3 : (k + 1) * (k + 1 - 1) / 2 = k * (k - 1) / 2 + k := by
      rw [Nat.succ_sub_one]
      exact triangle_succ k
    by_cases hv : cInv.getD i 0 ∈ st
    · rw [selSortAux_fst_of_mem cInv i k st hv, List.length_append, moveLeft_length_slots]
      have hpos : st.indexOf (cInv.getD i 0) < st.length := List.indexOf_lt_length.mpr hv
      have h1 : st.indexOf (cInv.getD i 0) - i ≤ k := by omega
      have h2 := ih (i + 1)
        (moveLeft st (st.indexOf (cInv.getD i 0)) (st.indexOf (cInv.getD i 0) - i)).2
        (by rw [moveLeft_length_state, hlen]) (by omega)
      omega
    · rw [selSortAux_fst_of_not_mem cInv i k st hv]
      have h2 := ih (i + 1) st hlen (by omega)
      omega

theorem selSortAux_final (cInv : List Nat) (n : Nat) (hcLen : cInv.length = n)
    (hcNodup : cInv.Nodup) (hcVals : ∀ v ∈ cInv, v < n) :
    ∀ (fuel i : Nat) (st : List Nat), i + fuel = n → st.length = n →
      (∀ j, j < i → st.getD j 0 = cInv.getD j 0) →
      (∀ x, x ∈ st ↔ x < n) →
      ∀ j, j < n → (selSortAux cInv i fuel st).2.getD j 0 = cInv.getD j 0 := by
  intro fuel
  induction fuel with
  | zero =>
    intro i st hin _ hpre _ j hj
    exact hpre j (by omega)
  | succ k ih =>
    intro i st hin hlen hpre hmem j hj
    have hi : i < n := by omega
    have hvi : cInv.getD i 0 ∈ cInv := by
      rw [List.getD_eq_getElem _ _ (by omega)]
      exact List.getElem_mem _
    have hvlt : cInv.getD i 0 < n := hcVals _ hvi
    have hv : cInv.getD i 0 ∈ st := (hmem _).mpr hvlt
    have hpos : st.indexOf (cInv.getD i 0) < st.length := List.indexOf_lt_length.mpr hv
    have hstpos : st.getD (st.indexOf (cInv.getD i 0)) 0 = cInv.getD i 0 := by
      rw [List.getD_eq_getElem _ _ hpos]
      exact List.getElem_indexOf hpos
    have hige : i ≤ st.indexOf (cInv.getD i 0) := by
      by_contra hcon
      have h1 : st.getD (st.indexOf (cInv.getD i 0)) 0 =
          cInv.getD (st.indexOf (cInv.getD i 0)) 0 := hpre _ (by omega)
      have h2 : cInv.getD (st.indexOf (cInv.getD i 0)) 0 = cInv.getD i 0 := by
        rw [← h1, hstpos]
      have := nodup_getD_inj cInv hcNodup _ i (by omega) (by omega) h2
      omega
    rw [selSortAux_snd_of_mem cInv i k st hv]
    refine ih (i + 1) _ (by omega) (by rw [moveLeft_length_state, hlen]) ?_ ?_ j hj
    · intro m hm
      rcases Nat.lt_or_ge m i with hmi | hmi
      · rw [moveLeft_front _ st _ (by omega) hpos m (by omega)]
        exact hpre m hmi
      · have hmeq : m = i := by omega
        rw [hmeq]
        have hland := moveLeft_landing (st.indexOf (cInv.getD i 0) - i) st
          (st.indexOf (cInv.getD i 0)) (by omega) hpos
        have he2 : st.indexOf (cInv.getD i 0) - (st.indexOf (cInv.getD i 0) - i) = i := by
          omega
        rw [he2] at hland
        rw [hland, hstpos]
    · intro x
      rw [moveLeft_mem _ st _ (by omega) hpos]
      exact hmem x

/-! ### Exclude-self generation realizes exactly the drawn derangement -/

theorem getD_map_range (f : Nat → Nat) (n i : Nat) (hi : i < n) :
    ((List.range n).map f).getD i 0 = f i := by
  rw [List.getD_eq_getElem _ _ (by simpa using hi), List.getElem_map, List.getElem_range]

theorem getD_lt_of_vals (p : List Nat) (n : Nat) (hlen : p.length = n)
    (hvals : ∀ v ∈ p, v < n) (j : Nat) (hj : j < n) : p.getD j 0 < n := by
  refine hvals _ ?_
  rw [List.getD_eq_getElem _ _ (by omega)]
  exact List.getElem_mem _

theorem vals_lt_of_getD (p : List Nat) (n : Nat) (h : ∀ z, p.getD z 0 < n) :
    ∀ v ∈ p, v < n := by
  intro v hv
  obtain ⟨i, _, hi⟩ := (mem_iff_getD p v).mp hv
  rw [← hi]
  exact h i

theorem simulatePermutation_vals (g : List (List Bool)) (n : Nat) :
    ∀ v ∈ simulatePermutation g n, v < n := by
  intro v hv
  rw [simulatePermutation, List.mem_map] at hv
  obtain ⟨x, hx, rfl⟩ := hv
  exact simulateOne_lt g n x (List.mem_range.mp hx)

theorem isValidDerangement_iff (l : List Nat) :
    isValidDerangement l = true ↔ ∀ i < l.length, l.getD i 0 ≠ i := by
  rw [isValidDerangement, List.all_eq_true]
  constructor
  · intro h i hi
    have := h i (List.mem_range.mpr hi)
    simpa using this
  · intro h i hi
    rw [List.mem_range] at hi
    simpa using h i hi

theorem simulate_permutationToRungs (b : Nat → Nat → Bool) (f : Nat → Nat)
    (T : List Nat) (n rowCount : Nat) (hn : 2 ≤ n) (hrc : max 12 (n * n) ≤ rowCount)
    (hTlen : T.length = n) (hTnd : T.Nodup) (hTvals : ∀ v ∈ T, v < n) :
    simulatePermutation (permutationToRungs b f T rowCount) n = T := by
  have hn0 : 0 < n := by omega
  -- the chaos grid and its realized permutation
  have hCGnoadj : GridNoAdj (chaosGridOf b n rowCount) := by
    intro r hr
    rw [chaosGridOf] at hr
    obtain ⟨row, _, rfl⟩ := List.mem_map.mp hr
    exact noAdjP_buildRandomRow _ _
  have hPlen : (currentPermOf b n rowCount).length = n := simulatePermutation_length _ n
  have hPnd : (currentPermOf b n rowCount).Nodup :=
    simulatePermutation_nodup _ n hCGnoadj
  have hPvals : ∀ v ∈ currentPermOf b n rowCount, v < n := simulatePermutation_vals _ n
  -- the positional inverse of the chaos permutation
  have hIinv : ∀ s, s < n →
      (invertPerm (currentPermOf b n rowCount)).getD
        ((currentPermOf b n rowCount).getD s 0) 0 = s := by
    intro s hs
    exact getD_invertPerm _ hPnd (fun v hv => by rw [hPlen]; exact hPvals v hv) s (by omega)
  have hIlt : ∀ z, (invertPerm (currentPermOf b n rowCount)).getD z 0 < n :=
    getD_invertPerm_lt _ n hPlen hn0
  -- the correction permutation
  have hcorr_eq : correctionList b T rowCount =
      (List.range n).map
        (fun i => T.getD ((invertPerm (currentPermOf b n rowCount)).getD i 0) 0) := by
    rw [correctionList, hTlen]
  have hcorrLen : (correctionList b T rowCount).length = n := by
    rw [hcorr_eq, List.length_map, List.length_range]
  have hcorrGetD : ∀ i, i < n → (correctionList b T rowCount).getD i 0 =
      T.getD ((invertPerm (currentPermOf b n rowCount)).getD i 0) 0 := by
    intro i hi
    rw [hcorr_eq, getD_map_range _ n i hi]
  have hcorrVals : ∀ v ∈ correctionList b T rowCount, v < n := by
    intro v hv
    rw [hcorr_eq, List.mem_map] at hv
    obtain ⟨i, _, rfl⟩ := hv
    exact getD_lt_of_vals T n hTlen hTvals _ (hIlt i)
  have hcorrNd : (correctionList b T rowCount).Nodup := by
    refine nodup_of_getD_inj _ ?_
    intro a c ha hc h
    rw [hcorrLen] at ha hc
    rw [hcorrGetD a ha, hcorrGetD c hc] at h
    have h2 := nodup_getD_inj T hTnd _ _ (by rw [hTlen]; exact hIlt a)
      (by rw [hTlen]; exact hIlt c) h
    have h3 := invertPerm_right_inverse (currentPermOf b n rowCount) n hPlen hPnd hPvals
    have h4 := h3 a ha
    have h5 := h3 c hc
    rw [h2] at h4
    omega
  -- the inverse of the correction permutation, the sort target
  have hcInvLen : (invertPerm (correctionList b T rowCount)).length = n := by
    rw [length_invertPerm, hcorrLen]
  have hcInvNd : (invertPerm (correctionList b T rowCount)).Nodup :=
    invertPerm_nodup _ n hcorrLen hcorrNd hcorrVals
  have hcInvVals : ∀ v ∈ invertPerm (correctionList b T rowCount), v < n :=
    vals_lt_of_getD _ n (getD_invertPerm_lt _ n hcorrLen hn0)
  -- the recorded swaps
  have hswaps_eq : correctionSwapList b T rowCount =
      (selSortAux (invertPerm (correctionList b T rowCount)) 0 n (List.range n)).1 := by
    rw [correctionSwapList, hTlen]
  have hstF : ∀ j, j < n →
      (selSortAux (invertPerm (correctionList b T rowCount)) 0 n (List.range n)).2.getD j 0 =
        (invertPerm (correctionList b T rowCount)).getD j 0 := by
    refine selSortAux_final _ n hcInvLen hcInvNd hcInvVals n 0 (List.range n) (by omega)
      (List.length_range n) (fun j hj => absurd hj (by omega)) ?_
    intro x
    exact List.mem_range
  have hslots_lt : ∀ q ∈ correctionSwapList b T rowCount, q < n - 1 := by
    rw [hswaps_eq]
    exact selSortAux_slots_lt _ n n 0 (List.range n) (List.length_range n)
  have hcount : (correctionSwapList b T rowCount).length ≤ n * (n - 1) / 2 := by
    rw [hswaps_eq]
    exact selSortAux_slots_count _ n n 0 (List.range n) (List.length_range n) (by omega)
  -- the recorded swaps all fit before the rows run out
  have hTT2 : n * (n - 1) / 2 ≤ rowCount / 2 := by
    have h1 : n * (n - 1) ≤ n * n := Nat.mul_le_mul_left n (by omega)
    have h2 : n * n ≤ rowCount := le_trans (Nat.le_max_right 12 (n * n)) hrc
    exact Nat.div_le_div_right (by omega)
  have hfit : (correctionSwapList b T rowCount).length ≤
      rowCount - chaosRowsCount n rowCount := by
    rw [chaosRowsCount]
    have h12 : 12 ≤ rowCount := le_trans (Nat.le_max_left 12 (n * n)) hrc
    omega
  have hplaced : placedSwaps b T rowCount = correctionSwapList b T rowCount := by
    rw [placedSwaps, hTlen]
    exact List.take_of_length_le hfit
  -- the grid decomposition
  have hgrid : permutationToRungs b f T rowCount =
      chaosGridOf b n rowCount ++
        (correctionSwapList b T rowCount).map (oneHotRow (n - 1)) ++
        fillerBuild f (n - 1)
          (chaosRowsCount n rowCount + (correctionSwapList b T rowCount).length)
          (rowCount -
            (chaosRowsCount n rowCount + (correctionSwapList b T rowCount).length)) := by
    rw [permutationToRungs, hplaced, hTlen]
  -- the pointwise computation
  have hmain : ∀ s, s < n →
      simulateOne (permutationToRungs b f T rowCount) n s = T.getD s 0 := by
    intro s hs
    rw [hgrid, simulateOne_append, simulateOne_append,
      simulateOne_oneHot_map _ n hslots_lt, simulateOne_fillerBuild f n hn]
    have hs1 : simulateOne (chaosGridOf b n rowCount) n s =
        (currentPermOf b n rowCount).getD s 0 :=
      (getD_simulatePermutation _ n s hs).symm
    have hs1lt : simulateOne (chaosGridOf b n rowCount) n s < n := simulateOne_lt _ n s hs
    have hA2lt : applySlots (correctionSwapList b T rowCount)
        (simulateOne (chaosGridOf b n rowCount) n s) < n :=
      applySlots_lt _ n hslots_lt _ hs1lt
    have htrack := selSortAux_track (invertPerm (correctionList b T rowCount)) n 0
      (List.range n) (simulateOne (chaosGridOf b n rowCount) n s)
    have hrange : (List.range n).getD (simulateOne (chaosGridOf b n rowCount) n s) 0 =
        simulateOne (chaosGridOf b n rowCount) n s := by
      rw [List.getD_eq_getElem _ _ (by simpa using hs1lt), List.getElem_range]
    rw [← hswaps_eq, hrange] at htrack
    rw [hstF _ hA2lt] at htrack
    have hinvcorr := getD_invertPerm (correctionList b T rowCount) hcorrNd
      (fun v hv => by rw [hcorrLen]; exact hcorrVals v hv)
      (simulateOne (chaosGridOf b n rowCount) n s) (by rw [hcorrLen]; exact hs1lt)
    have hA2 : applySlots (correctionSwapList b T rowCount)
        (simulateOne (chaosGridOf b n rowCount) n s) =
        (correctionList b T rowCount).getD
          (simulateOne (chaosGridOf b n rowCount) n s) 0 := by
      refine nodup_getD_inj _ hcInvNd _ _ (by rw [hcInvLen]; exact hA2lt) ?_ ?_
      · rw [hcInvLen]
        exact getD_lt_of_vals _ n hcorrLen hcorrVals _ hs1lt
      · rw [htrack, hinvcorr]
    rw [hA2, hcorrGetD _ hs1lt, hs1, hIinv s hs]
  rw [simulatePermutation]
  rw [List.map_congr_left (fun s hs => hmain s (List.mem_range.mp hs))]
  exact map_getD_range T n hTlen

/-- C1: for every `playerCount >= 2` and every sequence of values drawn
from the random source, `generateLadder` with `excludeSelf = true`
returns a layout whose induced column-to-column mapping, computed by
`computeAllResults`, equals exactly the target derangement drawn
internally by `generateDerangement`; in particular the mapping has no
fixed point. -/
theorem c1_excludeSelf_realizes_derangement (b : Nat → Nat → Bool) (f : Nat → Nat)
    (dr : Nat → Nat) (n : Nat) (hn : 2 ≤ n) :
    computeAllResults (generateLadder b f dr n true) n = generateDerangement dr n ∧
    isValidDerangement (computeAllResults (generateLadder b f dr n true) n) = true := by
  have hTperm := generateDerangement_perm_range dr n (by omega)
  have hTlen := length_generateDerangement dr n
  have hTnd : (generateDerangement dr n).Nodup :=
    hTperm.nodup_iff.mpr (List.nodup_range n)
  have hTvals : ∀ v ∈ generateDerangement dr n, v < n := by
    intro v hv
    exact List.mem_range.mp (hTperm.mem_iff.mp hv)
  have hmain : computeAllResults (generateLadder b f dr n true) n =
      generateDerangement dr n := by
    rw [computeAllResults_eq_simulate _ (generateLadder_length_rungs b f dr n true) n,
      generateLadder_rungs_true]
    exact simulate_permutationToRungs b f _ n (max 12 (n * n)) hn (le_refl _)
      hTlen hTnd hTvals
  refine ⟨hmain, ?_⟩
  rw [hmain, isValidDerangement_iff]
  intro i hi
  rw [hTlen] at hi
  exact generateDerangement_no_fixed dr n hn i hi

/-- Witness for C1 at `n = 2` with concrete oracles. -/
theorem c1_witness :
    computeAllResults (generateLadder (fun r c => (r + c) % 2 = 0) (fun r => r)
        (fun i => i) 2 true) 2 = generateDerangement (fun i => i) 2 ∧
    isValidDerangement (computeAllResults (generateLadder (fun r c => (r + c) % 2 = 0)
        (fun r => r) (fun i => i) 2 true) 2) = true :=
  c1_excludeSelf_realizes_derangement (fun r c => (r + c) % 2 = 0) (fun r => r)
    (fun i => i) 2 (by norm_num)

/-! ### Geometry of traced paths -/

theorem getX_inj (cw : ℚ) (hcw : cw ≠ 0) (a c : Nat) (h : getX cw a = getX cw c) :
    a = c := by
  unfold getX at h
  have h2 : (a : ℚ) * cw = (c : ℚ) * cw := by linarith
  have h3 : (a : ℚ) = c := mul_right_cancel₀ hcw h2
  exact_mod_cast h3

theorem getX_ne (cw : ℚ) (hcw : cw ≠ 0) (a c : Nat) (h : a ≠ c) :
    getX cw a ≠ getX cw c :=
  fun hx => h (getX_inj cw hcw a c hx)

theorem getY_ne (ch y0 : ℚ) (hch : ch ≠ 0) (r s : Nat) (h : r ≠ s) :
    getY ch y0 r ≠ getY ch y0 s := by
  intro hy
  unfold getY at hy
  have h2 : (r : ℚ) * ch = (s : ℚ) * ch := by linarith
  have h3 : (r : ℚ) = s := mul_right_cancel₀ hch h2
  exact h (by exact_mod_cast h3)

theorem getY_ne_start (ch y0 : ℚ) (hch : 0 < ch) (r : Nat) : getY ch y0 r ≠ y0 := by
  intro hy
  unfold getY at hy
  have h0 : (0 : ℚ) ≤ (r : ℚ) * ch := mul_nonneg (Nat.cast_nonneg r) (le_of_lt hch)
  linarith

theorem getY_ne_final (ch y0 : ℚ) (hch : 0 < ch) (row R : Nat) (h : row < R) :
    getY ch y0 row ≠ R * ch + y0 := by
  intro hy
  unfold getY at hy
  have hcast : (row : ℚ) + 1 ≤ (R : ℚ) := by exact_mod_cast Nat.succ_le_of_lt h
  have h2 : ((row : ℚ) + 1) * ch ≤ (R : ℚ) * ch :=
    mul_le_mul_of_nonneg_right hcast (le_of_lt hch)
  nlinarith

theorem traceRows_head (rungs : List (List Bool)) (n : Nat) (cw ch y0 : ℚ) (R : Nat) :
    ∀ (k row col : Nat) (p : PathPoint),
      ((traceRows rungs n cw ch y0 row col k).1 ++
        [(⟨getX cw (traceRows rungs n cw ch y0 row col k).2, R * ch + y0⟩ : PathPoint)]).head? =
          some p →
      p.x = getX cw col ∧ p.y = (if k = 0 then R * ch + y0 else getY ch y0 row) := by
  intro k row col p hp
  cases k with
  | zero =>
    rw [traceRows] at hp
    simp only [List.nil_append, List.head?_cons, Option.some_inj] at hp
    rw [← hp, if_pos rfl]
    exact ⟨rfl, rfl⟩
  | succ k =>
    rw [traceRows] at hp
    split at hp
    · simp only [List.cons_append, List.head?_cons, Option.some_inj] at hp
      rw [← hp, if_neg (Nat.succ_ne_zero k)]
      exact ⟨rfl, rfl⟩
    · split at hp <;>
        simp only [List.cons_append, List.head?_cons, Option.some_inj] at hp <;>
        rw [← hp, if_neg (Nat.succ_ne_zero k)] <;>
        exact ⟨rfl, rfl⟩

theorem traceRows_chain (rungs : List (List Bool)) (n : Nat) (cw ch y0 : ℚ)
    (hcw : cw ≠ 0) (hch : 0 < ch) (R : Nat) :
    ∀ (k row col : Nat), row + k = R →
      List.Chain' diffExactlyOne
        ((traceRows rungs n cw ch y0 row col k).1 ++
          [(⟨getX cw (traceRows rungs n cw ch y0 row col k).2, R * ch + y0⟩ : PathPoint)]) := by
  intro k
  induction k with
  | zero =>
    intro row col _
    rw [traceRows]
    exact List.chain'_singleton _
  | succ k ih =>
    intro row col hrow
    have hstep : ∀ (col2 : Nat),
        ∀ p, ((traceRows rungs n cw ch y0 (row + 1) col2 k).1 ++
          [(⟨getX cw (traceRows rungs n cw ch y0 (row + 1) col2 k).2,
            R * ch + y0⟩ : PathPoint)]).head? = some p →
          p.x = getX cw col2 ∧ p.y ≠ getY ch y0 row := by
      intro col2 p hp
      obtain ⟨hx, hy⟩ := traceRows_head rungs n cw ch y0 R k (row + 1) col2 p hp
      refine ⟨hx, ?_⟩
      rw [hy]
      split
      · rename_i hk0
        exact fun hc => getY_ne_final ch y0 hch row R (by omega) hc.symm
      · exact getY_ne ch y0 (ne_of_gt hch) (row + 1) row (by omega)
    rw [traceRows]
    split
    · rename_i h1
      rw [List.cons_append, List.cons_append, List.chain'_cons, List.chain'_cons']
      refine ⟨?_, ?_, ih (row + 1) (col - 1) (by omega)⟩
      · exact Or.inr ⟨getX_ne cw hcw col (col - 1) (by omega), rfl⟩
      · intro p hp
        obtain ⟨hx, hy⟩ := hstep (col - 1) p hp
        exact Or.inl ⟨hx.symm, fun hc => hy hc.symm⟩
    · split
      · rename_i h1 h2
        rw [List.cons_append, List.cons_append, List.chain'_cons, List.chain'_cons']
        refine ⟨?_, ?_, ih (row + 1) (col + 1) (by omega)⟩
        · exact Or.inr ⟨getX_ne cw hcw col (col + 1) (by omega), rfl⟩
        · intro p hp
          obtain ⟨hx, hy⟩ := hstep (col + 1) p hp
          exact Or.inl ⟨hx.symm, fun hc => hy hc.symm⟩
      · rw [List.cons_append, List.chain'_cons']
        refine ⟨?_, ih (row + 1) col (by omega)⟩
        intro p hp
        obtain ⟨hx, hy⟩ := hstep col p hp
        exact Or.inl ⟨hx.symm, fun hc => hy hc.symm⟩

/-- C8: for every generated layout, every `startCol` in
`[0, playerCount)`, and geometry with positive cell sizes: the trace's
first waypoint is at the `x` position derived from `startCol` with
`y = startY`, its last waypoint is at
`y = rowCount * cellHeight + startY`, and every pair of consecutive
waypoints differs in exactly one of `x` or `y` — never in both
coordinates and never in neither. -/
theorem c8_path_endpoints_and_steps (b : Nat → Nat → Bool) (f : Nat → Nat)
    (dr : Nat → Nat) (n : Nat) (es : Bool) (startCol : Nat) (cw ch y0 : ℚ)
    (_hsc : startCol < n) (hcw : 0 < cw) (hch : 0 < ch) :
    (traceLadderPath (generateLadder b f dr n es) startCol n cw ch y0).path.head? =
      some ⟨getX cw startCol, y0⟩ ∧
    (traceLadderPath (generateLadder b f dr n es) startCol n cw ch y0).path.getLast? =
      some ⟨getX cw
          (traceLadderPath (generateLadder b f dr n es) startCol n cw ch y0).finalColumn,
        (generateLadder b f dr n es).rowCount * ch + y0⟩ ∧
    List.Chain' diffExactlyOne
      (traceLadderPath (generateLadder b f dr n es) startCol n cw ch y0).path := by
  refine ⟨rfl, ?_, ?_⟩
  · show (({ x := getX cw startCol, y := y0 } : PathPoint) ::
        ((traceRows (generateLadder b f dr n es).rungs n cw ch y0 0 startCol
            (generateLadder b f dr n es).rowCount).1 ++
          [(⟨getX cw (traceRows (generateLadder b f dr n es).rungs n cw ch y0 0 startCol
              (generateLadder b f dr n es).rowCount).2,
            (generateLadder b f dr n es).rowCount * ch + y0⟩ : PathPoint)])).getLast? = _
    rw [← List.cons_append, List.getLast?_concat]
    rfl
  · show List.Chain' diffExactlyOne
      (({ x := getX cw startCol, y := y0 } : PathPoint) ::
        ((traceRows (generateLadder b f dr n es).rungs n cw ch y0 0 startCol
            (generateLadder b f dr n es).rowCount).1 ++
          [(⟨getX cw (traceRows (generateLadder b f dr n es).rungs n cw ch y0 0 startCol
              (generateLadder b f dr n es).rowCount).2,
            (generateLadder b f dr n es).rowCount * ch + y0⟩ : PathPoint)]))
    rw [List.chain'_cons']
    refine ⟨?_, traceRows_chain _ n cw ch y0 (ne_of_gt hcw) hch _ _ 0 startCol
      (Nat.zero_add _)⟩
    intro p hp
    obtain ⟨hx, hy⟩ := traceRows_head (generateLadder b f dr n es).rungs n cw ch y0
      (generateLadder b f dr n es).rowCount _ 0 startCol p hp
    have hR : (generateLadder b f dr n es).rowCount ≠ 0 := by
      have : 12 ≤ (generateLadder b f dr n es).rowCount := by
        cases es <;> exact Nat.le_max_left _ _
      omega
    rw [if_neg hR] at hy
    refine Or.inl ⟨hx.symm, ?_⟩
    rw [hy]
    exact fun hc => getY_ne_start ch y0 hch 0 hc.symm

/-- Witness for C8 at a concrete configuration. -/
theorem c8_witness :
    (traceLadderPath (generateLadder (fun _ _ => true) (fun _ => 0) (fun _ => 0) 2 false)
      0 2 1 1 0).path.head? = some ⟨getX 1 0, 0⟩ ∧
    (traceLadderPath (generateLadder (fun _ _ => true) (fun _ => 0) (fun _ => 0) 2 false)
      0 2 1 1 0).path.getLast? =
      some ⟨getX 1 (traceLadderPath (generateLadder (fun _ _ => true) (fun _ => 0)
          (fun _ => 0) 2 false) 0 2 1 1 0).finalColumn,
        (generateLadder (fun _ _ => true) (fun _ => 0) (fun _ => 0) 2 false).rowCount * 1 + 0⟩ ∧
    List.Chain' diffExactlyOne
      (traceLadderPath (generateLadder (fun _ _ => true) (fun _ => 0) (fun _ => 0) 2 false)
        0 2 1 1 0).path :=
  c8_path_endpoints_and_steps (fun _ _ => true) (fun _ => 0) (fun _ => 0) 2 false 0 1 1 0
    (by norm_num) (by norm_num) (by norm_num)

theorem traceRows_noTwoHoriz (rungs : List (List Bool)) (n : Nat) (cw ch y0 : ℚ)
    (_hcw : cw ≠ 0) (_hch : 0 < ch) (R : Nat) :
    ∀ (k row col : Nat) (p0 : PathPoint), row + k = R → p0.x = getX cw col →
      noTwoHoriz (p0 :: (traceRows rungs n cw ch y0 row col k).1 ++
        [(⟨getX cw (traceRows rungs n cw ch y0 row col k).2, R * ch + y0⟩ : PathPoint)]) := by
  intro k
  induction k with
  | zero =>
    intro row col p0 _ _
    rw [traceRows]
    trivial
  | succ k ih =>
    intro row col p0 hrow hp0
    rw [traceRows]
    split
    · rename_i h1
      show noTwoHoriz (p0 :: ({ x := getX cw col, y := getY ch y0 row } : PathPoint) ::
        ({ x := getX cw (col - 1), y := getY ch y0 row } : PathPoint) ::
        ((traceRows rungs n cw ch y0 (row + 1) (col - 1) k).1 ++
          [(⟨getX cw (traceRows rungs n cw ch y0 (row + 1) (col - 1) k).2,
            R * ch + y0⟩ : PathPoint)]))
      rcases h2 : (traceRows rungs n cw ch y0 (row + 1) (col - 1) k).1 ++
          [(⟨getX cw (traceRows rungs n cw ch y0 (row + 1) (col - 1) k).2,
            R * ch + y0⟩ : PathPoint)] with _ | ⟨hd, tl⟩
      · exact absurd h2 (by simp)
      · have hhd : hd.x = getX cw (col - 1) :=
          (traceRows_head rungs n cw ch y0 R k (row + 1) (col - 1) hd
            (by rw [h2]; rfl)).1
        have htail := ih (row + 1) (col - 1)
          ({ x := getX cw (col - 1), y := getY ch y0 row } : PathPoint) (by omega) rfl
        refine ⟨?_, ?_, h2 ▸ htail⟩
        · rintro ⟨⟨_, hxne⟩, _⟩
          exact hxne hp0
        · rintro ⟨_, ⟨_, hxne⟩⟩
          exact hxne hhd.symm
    · split
      · rename_i h1 h2x
        show noTwoHoriz (p0 :: ({ x := getX cw col, y := getY ch y0 row } : PathPoint) ::
          ({ x := getX cw (col + 1), y := getY ch y0 row } : PathPoint) ::
          ((traceRows rungs n cw ch y0 (row + 1) (col + 1) k).1 ++
            [(⟨getX cw (traceRows rungs n cw ch y0 (row + 1) (col + 1) k).2,
              R * ch + y0⟩ : PathPoint)]))
        rcases h2 : (traceRows rungs n cw ch y0 (row + 1) (col + 1) k).1 ++
            [(⟨getX cw (traceRows rungs n cw ch y0 (row + 1) (col + 1) k).2,
              R * ch + y0⟩ : PathPoint)] with _ | ⟨hd, tl⟩
        · exact absurd h2 (by simp)
        · have hhd : hd.x = getX cw (col + 1) :=
            (traceRows_head rungs n cw ch y0 R k (row + 1) (col + 1) hd
              (by rw [h2]; rfl)).1
          have htail := ih (row + 1) (col + 1)
            ({ x := getX cw (col + 1), y := getY ch y0 row } : PathPoint) (by omega) rfl
          refine ⟨?_, ?_, h2 ▸ htail⟩
          · rintro ⟨⟨_, hxne⟩, _⟩
            exact hxne hp0
          · rintro ⟨_, ⟨_, hxne⟩⟩
            exact hxne hhd.symm
      · show noTwoHoriz (p0 :: ({ x := getX cw col, y := getY ch y0 row } : PathPoint) ::
          ((traceRows rungs n cw ch y0 (row + 1) col k).1 ++
            [(⟨getX cw (traceRows rungs n cw ch y0 (row + 1) col k).2,
              R * ch + y0⟩ : PathPoint)]))
        rcases h2 : (traceRows rungs n cw ch y0 (row + 1) col k).1 ++
            [(⟨getX cw (traceRows rungs n cw ch y0 (row + 1) col k).2,
              R * ch + y0⟩ : PathPoint)] with _ | ⟨hd, tl⟩
        · exact absurd h2 (by simp)
        · have htail := ih (row + 1) col
            ({ x := getX cw col, y := getY ch y0 row } : PathPoint) (by omega) rfl
          exact ⟨fun hc => hc.1.2 hp0, h2 ▸ htail⟩

/-- C9 counterexample: on a generated layout whose rows hold no rungs
at all (all boolean draws false, `playerCount = 2`, unit geometry), the
first three waypoints of the traced path share the same `x` and descend
in `y`, so the first two moves are both vertical — the claimed strict
alternation of vertical and horizontal moves fails. -/
theorem traceRows_step_none (rungs : List (List Bool)) (n : Nat) (cw ch y0 : ℚ)
    (row col k : Nat)
    (h1 : ¬(0 < col ∧ (rungs.getD row []).getD (col - 1) false = true))
    (h2 : ¬(col < n - 1 ∧ (rungs.getD row []).getD col false = true)) :
    traceRows rungs n cw ch y0 row col (k + 1) =
      (⟨getX cw col, getY ch y0 row⟩ :: (traceRows rungs n cw ch y0 (row + 1) col k).1,
        (traceRows rungs n cw ch y0 (row + 1) col k).2) := by
  rw [traceRows, if_neg h1, if_neg h2]

theorem c9_counterexample_consecutive_vertical :
    (traceLadderPath (generateLadder (fun _ _ => false) (fun _ => 0) (fun _ => 0) 2 false)
      0 2 1 1 0).path.take 3 =
      [⟨101 / 2, 0⟩, ⟨101 / 2, 1 / 2⟩, ⟨101 / 2, 3 / 2⟩] := by
  have hgrid : generateLadder (fun _ _ => false) (fun _ => 0) (fun _ => 0) 2 false =
      { rungs := List.replicate 12 [false], rowCount := 12 } := by decide
  rw [hgrid]
  have e1 : (traceRows (List.replicate 12 [false]) 2 1 1 0 0 0 12).1 =
      ⟨getX 1 0, getY 1 0 0⟩ :: (traceRows (List.replicate 12 [false]) 2 1 1 0 1 0 11).1 := by
    rw [traceRows_step_none (List.replicate 12 [false]) 2 1 1 0 0 0 11 (by decide) (by decide)]
  have e2 : (traceRows (List.replicate 12 [false]) 2 1 1 0 1 0 11).1 =
      ⟨getX 1 0, getY 1 0 1⟩ :: (traceRows (List.replicate 12 [false]) 2 1 1 0 2 0 10).1 := by
    rw [traceRows_step_none (List.replicate 12 [false]) 2 1 1 0 1 0 10 (by decide) (by decide)]
  show (({ x := getX 1 0, y := (0 : ℚ) } : PathPoint) ::
      ((traceRows (List.replicate 12 [false]) 2 1 1 0 0 0 12).1 ++
        [(⟨getX 1 (traceRows (List.replicate 12 [false]) 2 1 1 0 0 0 12).2,
          (12 : Nat) * 1 + 0⟩ : PathPoint)])).take 3 = _
  rw [e1, e2]
  show [({ x := getX 1 0, y := (0 : ℚ) } : PathPoint), ⟨getX 1 0, getY 1 0 0⟩,
    ⟨getX 1 0, getY 1 0 1⟩] = _
  norm_num [getX, getY]

/-- C9 (amended): the moves of a traced path need not strictly
alternate — two consecutive vertical moves occur at every row without a
crossing — but no two consecutive moves are ever both horizontal: every
horizontal move is immediately preceded and followed by a vertical
move. -/
theorem c9_amended_no_two_horizontal (b : Nat → Nat → Bool) (f : Nat → Nat)
    (dr : Nat → Nat) (n : Nat) (es : Bool) (startCol : Nat) (cw ch y0 : ℚ)
    (_hsc : startCol < n) (hcw : 0 < cw) (hch : 0 < ch) :
    noTwoHoriz
      (traceLadderPath (generateLadder b f dr n es) startCol n cw ch y0).path := by
  show noTwoHoriz
    (({ x := getX cw startCol, y := y0 } : PathPoint) ::
      (traceRows (generateLadder b f dr n es).rungs n cw ch y0 0 startCol
          (generateLadder b f dr n es).rowCount).1 ++
        [(⟨getX cw (traceRows (generateLadder b f dr n es).rungs n cw ch y0 0 startCol
            (generateLadder b f dr n es).rowCount).2,
          (generateLadder b f dr n es).rowCount * ch + y0⟩ : PathPoint)])
  exact traceRows_noTwoHoriz (generateLadder b f dr n es).rungs n cw ch y0
    (ne_of_gt hcw) hch (generateLadder b f dr n es).rowCount
    (generateLadder b f dr n es).rowCount 0 startCol
    ({ x := getX cw startCol, y := y0 } : PathPoint) (Nat.zero_add _) rfl

/-- Witness for the amended C9 at a concrete configuration. -/
theorem c9_amended_witness :
    noTwoHoriz
      (traceLadderPath (generateLadder (fun _ _ => true) (fun _ => 0) (fun _ => 0) 2 false)
        0 2 1 1 0).path :=
  c9_amended_no_two_horizontal (fun _ _ => true) (fun _ => 0) (fun _ => 0) 2 false 0 1 1 0
    (by norm_num) (by norm_num) (by norm_num)

/-- C2 counterexample: `generateLadder` performs no input validation:
called with `playerCount = 1` (and `excludeSelf = false`, any draws —
shown here at a concrete oracle) it does not fail with any
InvalidConfiguration condition; it returns an ordinary layout of 12
rows with zero rung slots each.  No error condition exists anywhere in
the code. -/
theorem c2_counterexample_returns_layout :
    generateLadder (fun _ _ => false) (fun _ => 0) (fun _ => 0) 1 false =
      { rungs := List.replicate 12 [], rowCount := 12 } := by
  decide

/-- C2 (amended): `generateLadder` never rejects its input: for every
`playerCount < 2` (with `excludeSelf = false`) and every sequence of
random draws it silently returns a layout with `rowCount = 12` and 12
rows of `playerCount - 1 = 0` rung slots, instead of failing with an
InvalidConfiguration error. -/
theorem c2_amended_no_validation (b : Nat → Nat → Bool) (f : Nat → Nat) (dr : Nat → Nat)
    (n : Nat) (hn : n < 2) :
    (generateLadder b f dr n false).rowCount = 12 ∧
    (generateLadder b f dr n false).rungs = List.replicate 12 [] := by
  constructor
  · show max 12 (n * 4) = 12
    omega
  · rw [generateLadder_rungs_false]
    have h0 : n - 1 = 0 := by omega
    have h12 : max 12 (n * 4) = 12 := by omega
    rw [h0, h12]
    refine List.eq_replicate_iff.mpr ⟨by simp, ?_⟩
    intro x hx
    rw [List.mem_map] at hx
    obtain ⟨row, _, rfl⟩ := hx
    rfl

/-- Witness for the amended C2 at `playerCount = 1`. -/
theorem c2_amended_witness :
    (generateLadder (fun _ _ => true) (fun r => r) (fun i => i) 1 false).rowCount = 12 ∧
    (generateLadder (fun _ _ => true) (fun r => r) (fun i => i) 1 false).rungs =
      List.replicate 12 [] :=
  c2_amended_no_validation (fun _ _ => true) (fun r => r) (fun i => i) 1 (by norm_num)

/-- Witness for C4 at a concrete configuration. -/
theorem c4_witness :
    (computeAllResults (generateLadder (fun r c => (r + c) % 2 = 0) (fun r => r)
      (fun i => i) 2 false) 2).length = 2 ∧
    (computeAllResults (generateLadder (fun r c => (r + c) % 2 = 0) (fun r => r)
      (fun i => i) 2 false) 2).Perm (List.range 2) :=
  c4_computeAllResults_bijection _ _ _ 2 false (by norm_num)


